import Mathlib

/-!
Verification development for the QlAccount resource-management console.

The definitions below are a shallow embedding of the TypeScript source:
JavaScript dynamic values are modelled by the inductive `JsValue`, objects
used as string-keyed maps by association lists, and the remote store's
query results by `Except` values (an `Except.error` models a store error).
The local timezone is modelled as UTC, so "start of day" for day number
`d` is `d * 86400000` epoch milliseconds.
-/

namespace QlAccount

/-- Model of a JavaScript dynamic value as stored in a record's `data`
map or a form's `formData` (src/unnamed/part_003 `Record<string, any>`). -/
inductive JsValue where
  | undefined : JsValue
  | null : JsValue
  | str : String → JsValue
  | arr : List String → JsValue
  | num : Int → JsValue
  | boolean : Bool → JsValue
deriving DecidableEq

/-- Role type from src/unnamed/part_003 (`'admin' | 'manager' | 'user'`). -/
inductive Role where
  | admin : Role
  | manager : Role
  | user : Role
deriving DecidableEq

/-- User from src/unnamed/part_003 (fields relevant to the claims). -/
structure User where
  id : String
  username : String
  email : String
  fullName : Option String
  role : Role
deriving DecidableEq

/-- FieldType from src/unnamed/part_003. -/
inductive FieldType where
  | text : FieldType
  | number : FieldType
  | date : FieldType
  | boolean : FieldType
  | textarea : FieldType
  | project : FieldType
  | user : FieldType
  | image : FieldType
  | file : FieldType
deriving DecidableEq

/-- FieldDefinition from src/unnamed/part_003. -/
structure FieldDef where
  id : String
  name : String
  key : String
  type : FieldType
  required : Bool
deriving DecidableEq

/-- ResourceItem from src/unnamed/part_003; `data` is the dynamic
key→value map, `createdAt` epoch milliseconds. -/
structure ResourceItem where
  id : String
  categoryId : String
  data : List (String × JsValue)
  createdBy : String
  createdAt : Nat
deriving DecidableEq

/-- Project from src/unnamed/part_003. -/
structure Project where
  id : String
  name : String
  code : String
  description : String
  status : String
  createdAt : String
deriving DecidableEq

/-- Property lookup `obj[key]` on a JS object modelled as an association
list: an absent key yields `undefined`. -/
def jsGet (m : List (String × JsValue)) (k : String) : JsValue :=
  match m.find? (fun p => p.1 = k) with
  | some p => p.2
  | none => .undefined

/-- Property assignment `obj[key] = v` (replace an existing binding or
append a new one). -/
def jsSet (m : List (String × JsValue)) (k : String) (v : JsValue) : List (String × JsValue) :=
  if m.any (fun p => p.1 = k) then
    m.map (fun p => if p.1 = k then (k, v) else p)
  else
    m ++ [(k, v)]

/-- JS truthiness of a modelled value. -/
def jsTruthy : JsValue → Bool
  | .undefined => false
  | .null => false
  | .str s => s ≠ ""
  | .arr _ => true
  | .num n => n ≠ 0
  | .boolean b => b

/-- JS `String(v)` coercion on the modelled values (arrays join their
elements with commas). -/
def jsToString : JsValue → String
  | .undefined => "undefined"
  | .null => "null"
  | .str s => s
  | .arr xs => String.intercalate "," xs
  | .num n => toString n
  | .boolean b => if b then "true" else "false"

/-- `String.prototype.toLowerCase`, modelled on the ASCII range (the
Vietnamese letters appearing in the sources are already lowercase where
case-insensitive comparison matters). -/
def jsToLower (s : String) : String :=
  String.mk (s.data.map Char.toLower)

/-- `String.prototype.includes`: substring test. -/
def strContains (hay needle : String) : Bool :=
  (List.range (hay.length + 1)).any (fun i => (hay.drop i).take needle.length = needle)

-- ---------------------------------------------------------------------------
-- Permission engine (src/unnamed/part_003, PERMISSIONS)
-- ---------------------------------------------------------------------------

/-- `PERMISSIONS.canEditResource` from src/unnamed/part_003 lines 91-94. -/
def canEditResource (u : User) (r : ResourceItem) : Bool :=
  if u.role = .admin ∨ u.role = .manager then true
  else r.createdBy = u.username

-- ---------------------------------------------------------------------------
-- Required-field validation on the manual form save path
-- (src/views/DataManager.tsx, handleSave, lines 414-444)
-- ---------------------------------------------------------------------------

/-- The emptiness test of DataManager.tsx line 424:
`val === undefined || val === '' || (Array.isArray(val) && val.length === 0)`. -/
def isMissing : JsValue → Bool
  | .undefined => true
  | .str s => s = ""
  | .arr xs => xs = []
  | _ => false

/-- The validation loop of `handleSave` (DataManager.tsx lines 421-429):
scan the category's fields in schema order and report the display name of
the first required field whose candidate value is missing. -/
def findMissingRequired : List FieldDef → List (String × JsValue) → Option String
  | [], _ => none
  | f :: fs, data =>
    if f.required ∧ isMissing (jsGet data f.key) then some f.name
    else findMissingRequired fs data

/-- The save path of `handleSave`: validation failure aborts with the
first missing field's name and performs no store write; otherwise the
resource is passed to `dataService.saveResource`. The first component is
the validation toast (if any), the second the list of store writes. -/
def formSave (fields : List FieldDef) (r : ResourceItem) : Option String × List ResourceItem :=
  match findMissingRequired fields r.data with
  | some name => (some name, [])
  | none => (none, [r])

-- ---------------------------------------------------------------------------
-- Filter & query engine (src/views/DataManager.tsx, filteredResources,
-- lines 710-748)
-- ---------------------------------------------------------------------------

/-- JS `Number(s)` on a string: empty/whitespace is 0, integer literals
parse, anything else is NaN (`none`). -/
def jsParseNumber (s : String) : Option Int :=
  let t := s.trim
  if t = "" then some 0 else t.toInt?

/-- JS `Number(v)` on a modelled value (`none` is NaN). -/
def jsToNumber : JsValue → Option Int
  | .undefined => none
  | .null => some 0
  | .str s => jsParseNumber s
  | .num n => some n
  | .boolean b => some (if b then 1 else 0)
  | .arr [] => some 0
  | .arr [x] => jsParseNumber x
  | .arr (_ :: _ :: _) => none

/-- JS numeric equality under the NaN rule: a NaN on either side never
compares equal. -/
def jsNumEq (a b : Option Int) : Bool :=
  match a, b with
  | some x, some y => x = y
  | _, _ => false

/-- `selectedCategory.fields.find(f => f.key === key)`. -/
def findField (fields : List FieldDef) (k : String) : Option FieldDef :=
  fields.find? (fun f => f.key = k)

/-- Outcome of one iteration of the `for (const key in fieldFilters)`
loop body in `filteredResources`: fall through to the next filter,
`return false` from the whole predicate, or `return true` from the whole
predicate (the relation-wildcard short-circuit of line 735). -/
inductive StepResult where
  | next : StepResult
  | retFalse : StepResult
  | retTrue : StepResult
deriving DecidableEq

/-- One iteration of the per-field filter loop (DataManager.tsx lines
722-745), for filter key `k` with filter value `v`. -/
def filterStep (fields : List FieldDef) (r : ResourceItem) (k v : String) : StepResult :=
  if v = "" then .next
  else
    let itemVal := jsGet r.data k
    if itemVal = .undefined ∨ itemVal = .null then .retFalse
    else
      match findField fields k with
      | none => .next
      | some fd =>
        if fd.type = .text ∨ fd.type = .textarea then
          if strContains (jsToLower (jsToString itemVal)) (jsToLower v) then .next else .retFalse
        else if fd.type = .boolean then
          if jsToString itemVal = v then .next else .retFalse
        else if fd.type = .user ∨ fd.type = .project then
          match itemVal with
          | .arr xs =>
            if xs.contains "all" then .retTrue
            else if xs.contains v then .next else .retFalse
          | _ =>
            if jsToString itemVal = "all" ∨ jsToString itemVal = v then .next else .retFalse
        else if fd.type = .number then
          if jsNumEq (jsToNumber itemVal) (jsToNumber (.str v)) then .next else .retFalse
        else if fd.type = .date then
          if jsToString itemVal = v then .next else .retFalse
        else .next

/-- The `for (const key in fieldFilters)` loop, iterating the filter map
in key-insertion order; a `retTrue`/`retFalse` step returns from the
whole filter predicate. -/
def applyFieldFilters (fields : List FieldDef) (r : ResourceItem) : List (String × String) → Bool
  | [] => true
  | (k, v) :: rest =>
    match filterStep fields r k v with
    | .next => applyFieldFilters fields r rest
    | .retFalse => false
    | .retTrue => true

/-- Milliseconds per day. -/
def msPerDay : Nat := 86400000

/-- `new Date(filterDateFrom)` followed by `setHours(0,0,0,0)` for day
number `d` (local timezone modelled as UTC). -/
def startOfDayMs (d : Nat) : Nat := d * msPerDay

/-- `new Date(filterDateTo)` followed by `setHours(23,59,59,999)`. -/
def endOfDayMs (d : Nat) : Nat := d * msPerDay + (msPerDay - 1)

/-- The active filter state of the DataManager view: creator substring
(inactive when empty), optional from/to day numbers, and the per-field
filter map in key-insertion order. -/
structure Filters where
  creator : String
  dateFrom : Option Nat
  dateTo : Option Nat
  fieldFilters : List (String × String)

/-- The predicate of `resources.filter(...)` in `filteredResources`
(DataManager.tsx lines 710-748); `cat` is `selectedCategory`'s field
list when a category is selected. -/
def resourceMatches (cat : Option (List FieldDef)) (flt : Filters) (r : ResourceItem) : Bool :=
  if flt.creator ≠ "" ∧ ¬ strContains (jsToLower r.createdBy) (jsToLower flt.creator) then
    false
  else if (match flt.dateFrom with
           | none => false
           | some d => r.createdAt < startOfDayMs d) then
    false
  else if (match flt.dateTo with
           | none => false
           | some d => endOfDayMs d < r.createdAt) then
    false
  else
    match cat with
    | none => true
    | some fields => applyFieldFilters fields r flt.fieldFilters

/-- `filteredResources`: the ordered filtered subset. -/
def filteredResources (cat : Option (List FieldDef)) (flt : Filters) (resources : List ResourceItem) : List ResourceItem :=
  resources.filter (resourceMatches cat flt)

/-- Per-field filter satisfaction: the loop step for this filter does
not reject the record (a wildcard acceptance also counts as satisfying
the field's filter). -/
def fieldFilterPasses (fields : List FieldDef) (r : ResourceItem) (kv : String × String) : Bool :=
  filterStep fields r kv.1 kv.2 ≠ .retFalse

/-- The filter step hits the relation-wildcard short-circuit of line 735
(stored value an array containing `"all"`). -/
def wildcardHit (fields : List FieldDef) (r : ResourceItem) (kv : String × String) : Bool :=
  filterStep fields r kv.1 kv.2 = .retTrue

/-- The creator filter is inactive or matched (line 711). -/
def creatorPasses (flt : Filters) (r : ResourceItem) : Bool :=
  flt.creator = "" ∨ strContains (jsToLower r.createdBy) (jsToLower flt.creator)

/-- The date-range filter accepts the record (lines 712-720). -/
def datePasses (flt : Filters) (r : ResourceItem) : Bool :=
  (match flt.dateFrom with
   | none => true
   | some d => startOfDayMs d ≤ r.createdAt) &&
  (match flt.dateTo with
   | none => true
   | some d => r.createdAt ≤ endOfDayMs d)

-- ---------------------------------------------------------------------------
-- CSV line parser (src/views/DataManager.tsx, parseCSVLine, lines 540-551)
-- ---------------------------------------------------------------------------

/-- The character loop of `parseCSVLine`: state is the quote toggle, the
column being accumulated, and the columns already pushed. -/
def csvSplitAux : List Char → Bool → List Char → List (List Char) → List (List Char)
  | [], _, col, acc => acc ++ [col]
  | c :: cs, quote, col, acc =>
    if c = '"' then csvSplitAux cs (!quote) col acc
    else if c = ',' ∧ quote = false then csvSplitAux cs quote [] (acc ++ [col])
    else csvSplitAux cs quote (col ++ [c]) acc

/-- `parseCSVLine` from DataManager.tsx lines 540-551. -/
def parseCSVLine (s : String) : List String :=
  (csvSplitAux s.data false [] []).map String.mk

/-- Modelled from the spec: the number of commas occurring while the
double-quote toggle (initial state `q`) is off — the split points the
spec says the parser must honour. -/
def topLevelCommas : List Char → Bool → Nat
  | [], _ => 0
  | c :: cs, q =>
    if c = '"' then topLevelCommas cs (!q)
    else if c = ',' ∧ q = false then 1 + topLevelCommas cs q
    else topLevelCommas cs q

/-- Modelled from the spec: the characters that remain as field content
once every double quote is consumed by the toggle and every top-level
comma becomes a split point; commas inside a quoted region are kept. -/
def contentChars : List Char → Bool → List Char
  | [], _ => []
  | c :: cs, q =>
    if c = '"' then contentChars cs (!q)
    else if c = ',' ∧ q = false then contentChars cs q
    else c :: contentChars cs q

-- ---------------------------------------------------------------------------
-- JS string trimming and the import-side quote stripping
-- ---------------------------------------------------------------------------

/-- The ECMAScript whitespace characters relevant here (`String.trim`
also strips the BOM U+FEFF). -/
def isJsWhitespace (c : Char) : Bool :=
  c = ' ' ∨ c = '\t' ∨ c = '\n' ∨ c = '\r' ∨ c = '\x0b' ∨ c = '\x0c' ∨ c = '\u00A0' ∨ c = '\uFEFF'

/-- `String.prototype.trim` on the character list. -/
def jsTrimChars (l : List Char) : List Char :=
  ((l.dropWhile isJsWhitespace).reverse.dropWhile isJsWhitespace).reverse

/-- `String.prototype.trim`. -/
def jsTrim (s : String) : String :=
  String.mk (jsTrimChars s.data)

/-- A character list without leading or trailing JS whitespace (so the
line/value survives the import's trimming unchanged). -/
def NoEdgeWs (l : List Char) : Prop :=
  jsTrimChars l = l

instance (l : List Char) : Decidable (NoEdgeWs l) := by
  unfold NoEdgeWs
  infer_instance

/-- `replace(/^"|"$/g, '')`: drop one leading and one trailing double
quote if present. -/
def stripOuterQuotesChars (l : List Char) : List Char :=
  let t := if l.head? = some '"' then l.tail else l
  if t.getLast? = some '"' then t.dropLast else t

/-- String version of `stripOuterQuotesChars`. -/
def stripOuterQuotes (s : String) : String :=
  String.mk (stripOuterQuotesChars s.data)

-- ---------------------------------------------------------------------------
-- Line splitting and joining (JS `text.split('\n')` and `rows.join('\n')`)
-- ---------------------------------------------------------------------------

/-- JS `String.prototype.split('\n')` on the character list. -/
def splitLines : List Char → List (List Char)
  | [] => [[]]
  | c :: cs =>
    if c = '\n' then [] :: splitLines cs
    else
      match splitLines cs with
      | [] => [[c]]
      | l :: ls => (c :: l) :: ls

/-- JS `Array.prototype.join('\n')`. -/
def joinLines : List (List Char) → List Char
  | [] => []
  | [l] => l
  | l :: ls => l ++ ('\n' :: joinLines ls)

/-- JS `Array.prototype.join(',')`. -/
def joinComma : List (List Char) → List Char
  | [] => []
  | [l] => l
  | l :: ls => l ++ (',' :: joinComma ls)

-- ---------------------------------------------------------------------------
-- CSV export (src/views/DataManager.tsx, handleExportCSV, lines 762-806,
-- with getProjectName/getUserName from lines 493-519)
-- ---------------------------------------------------------------------------

/-- `val.replace(/"/g, '""')`: double every double quote. -/
def escapeQuotesChars : List Char → List Char
  | [] => []
  | c :: cs =>
    if c = '"' then '"' :: ('"' :: escapeQuotesChars cs)
    else c :: escapeQuotesChars cs

/-- `getProjectName` from DataManager.tsx lines 493-505. -/
def getProjectName (projects : List Project) : JsValue → String
  | .arr xs =>
    String.intercalate ", " (xs.map (fun i =>
      if i = "all" then "Tất cả (All)"
      else match projects.find? (fun p => p.id = i) with
        | some p => p.code
        | none => i))
  | v =>
    if v = .str "all" then "Tất cả (All)"
    else match projects.find? (fun p => p.id = jsToString v) with
      | some p => p.code ++ " - " ++ p.name
      | none => jsToString v

/-- `getUserName` from DataManager.tsx lines 507-519 (`fullName ||
username` falls back on an absent or empty full name). -/
def getUserName (users : List User) : JsValue → String
  | .arr xs =>
    String.intercalate ", " (xs.map (fun i =>
      if i = "all" then "Tất cả (All)"
      else match users.find? (fun u => u.id = i) with
        | some u => match u.fullName with
          | some f => if f = "" then u.username else f
          | none => u.username
        | none => i))
  | v =>
    if v = .str "all" then "Tất cả (All)"
    else match users.find? (fun u => u.id = jsToString v) with
      | some u => (match u.fullName with
        | some f => if f = "" then u.username else f
        | none => u.username)
      | none => jsToString v

/-- One exported cell (the per-field formatting of handleExportCSV lines
773-785); `fmtDate` stands for the browser's
`new Date(v).toLocaleDateString('vi-VN')`. -/
def exportCell (fmtDate : String → String) (projects : List Project) (users : List User) (f : FieldDef) (v : JsValue) : String :=
  if f.type = .boolean then (if v = .str "true" then "Có" else "Không")
  else if f.type = .date then (if jsTruthy v then fmtDate (jsToString v) else "")
  else if f.type = .user then getUserName users v
  else if f.type = .project then getProjectName projects v
  else
    match v with
    | .str s => String.mk ('"' :: (escapeQuotesChars s.data ++ ['"']))
    | .undefined => ""
    | .null => ""
    | other => jsToString other

/-- One exported data row (handleExportCSV lines 787-792); `fmtDateTime`
stands for `new Date(createdAt).toLocaleString('vi-VN')`. -/
def exportRow (fmtDate : String → String) (fmtDateTime : Nat → String) (projects : List Project) (users : List User) (fields : List FieldDef) (r : ResourceItem) : List Char :=
  joinComma (r.id.data ::
    (fields.map (fun f => (exportCell fmtDate projects users f (jsGet r.data f.key)).data) ++
      [r.createdBy.data, (fmtDateTime r.createdAt).data]))

/-- The exported header row (handleExportCSV line 769). -/
def exportHeaderLine (fields : List FieldDef) : List Char :=
  joinComma ("ID".data :: (fields.map (fun f => f.name.data) ++ ["Người tạo".data, "Ngày tạo".data]))

/-- The full CSV text produced by `handleExportCSV` (line 796): a BOM,
then the header and data rows joined by newlines. -/
def exportCSV (fmtDate : String → String) (fmtDateTime : Nat → String) (projects : List Project) (users : List User) (fields : List FieldDef) (resources : List ResourceItem) : String :=
  String.mk ('\uFEFF' ::
    joinLines (exportHeaderLine fields :: resources.map (exportRow fmtDate fmtDateTime projects users fields)))

-- ---------------------------------------------------------------------------
-- CSV import (src/views/DataManager.tsx, handleFileUpload, lines 553-645)
-- ---------------------------------------------------------------------------

/-- The per-value coercion of the import loop (lines 603-619). -/
def coerceValue (fd : FieldDef) (projects : List Project) (users : List User) (raw : String) : JsValue :=
  if fd.type = .boolean then
    .str (if jsToLower raw = "true" ∨ jsToLower raw = "có" ∨ jsToLower raw = "đúng" ∨ jsToLower raw = "1"
          then "true" else "false")
  else if fd.type = .project then
    match projects.find? (fun p => p.code = raw ∨ p.name = raw ∨ p.id = raw) with
    | some p => .arr [p.id]
    | none => if raw ≠ "" then .arr [raw] else .arr []
  else if fd.type = .user then
    match users.find? (fun u => u.username = raw ∨ u.fullName = some raw ∨ u.email = raw ∨ u.id = raw) with
    | some u => .arr [u.id]
    | none => if raw ≠ "" then .arr [raw] else .arr []
  else .str raw

/-- Building one imported record's `resourceData` from the parsed cell
values of one data line (lines 593-620): for each mapped column index,
clean the raw cell and coerce it by the field's type. -/
def importRow (fields : List FieldDef) (projects : List Project) (users : List User) (fieldMap : List (Nat × String)) (values : List String) : List (String × JsValue) :=
  fieldMap.foldl (fun acc ik =>
    match findField fields ik.2 with
    | none => acc
    | some fd =>
      let rawValue := String.mk (stripOuterQuotesChars (jsTrimChars (values.getD ik.1 "").data))
      jsSet acc ik.2 (coerceValue fd projects users rawValue)) []

/-- `handleFileUpload` (lines 553-645) up to the per-row saves: split the
file into non-empty trimmed lines, map headers to field keys by
case-insensitive display-name match, then coerce each data line into a
record's data map. Errors model the aborting toasts. -/
def importCSV (fields : List FieldDef) (projects : List Project) (users : List User) (text : String) : Except String (List (List (String × JsValue))) :=
  let lines := ((splitLines text.data).map (fun l => String.mk (jsTrimChars l))).filter (fun s => s ≠ "")
  match lines with
  | [] => .error "File không có dữ liệu"
  | headerLine :: dataLines =>
    if dataLines.isEmpty then .error "File không có dữ liệu"
    else
      let headers := (parseCSVLine headerLine).map (fun h => stripOuterQuotes (jsTrim h))
      let fieldMap := headers.enum.filterMap (fun ih =>
        (fields.find? (fun f => jsToLower f.name = jsToLower ih.2)).map (fun f => (ih.1, f.key)))
      if fieldMap.isEmpty then .error "Không tìm thấy cột nào khớp với cấu trúc dữ liệu"
      else .ok (dataLines.map (fun line => importRow fields projects users fieldMap (parseCSVLine line)))

-- ---------------------------------------------------------------------------
-- Project save path (src/views/SystemSettings.tsx handleSave lines 375-401,
-- src/services/storage.ts projectService.checkCodeExists lines 392-398)
-- ---------------------------------------------------------------------------

/-- The store query issued by `checkCodeExists`: ids of projects whose
code equals `code`, excluding `excludeId` when given. -/
def runCodeQuery (table : List Project) (code : String) (excludeId : Option String) : List String :=
  (table.filter (fun p =>
    p.code == code && (match excludeId with
                       | none => true
                       | some e => p.id != e))).map (fun p => p.id)

/-- `projectService.checkCodeExists` applied to the store's reply (an
`Except.error` models a query error: the function swallows it and
reports the code as not existing). -/
def checkCodeExists (res : Except String (List String)) : Bool :=
  match res with
  | .error _ => false
  | .ok rows => decide (0 < rows.length)

/-- Outcome of the project `handleSave` in SystemSettings.tsx. -/
inductive ProjectSaveOutcome where
  | errEmptyCode : ProjectSaveOutcome
  | errEmptyName : ProjectSaveOutcome
  | errDuplicate : ProjectSaveOutcome
  | saved : ProjectSaveOutcome
deriving DecidableEq

/-- `handleSave` from SystemSettings.tsx lines 375-401, given the store's
reply to the duplicate-code query. The boolean records whether
`projectService.save` (the store upsert) is reached. -/
def projectHandleSave (code name : String) (queryResult : Except String (List String)) : ProjectSaveOutcome × Bool :=
  if jsTrim code = "" then (.errEmptyCode, false)
  else if jsTrim name = "" then (.errEmptyName, false)
  else if checkCodeExists queryResult then (.errDuplicate, false)
  else (.saved, true)

/-- A CSV cell as the export emits it: either a raw cell (no comma, no
quote) or a wholly quoted cell (no quote inside). -/
inductive CellEnc where
  | rawCell : List Char → CellEnc
  | quotedCell : List Char → CellEnc

/-- The characters a cell contributes to the joined line. -/
def CellEnc.encode : CellEnc → List Char
  | .rawCell s => s
  | .quotedCell s => '"' :: (s ++ ['"'])

/-- The field content the parser recovers for the cell. -/
def CellEnc.val : CellEnc → List Char
  | .rawCell s => s
  | .quotedCell s => s

/-- Well-formedness making a cell parse back to its value. -/
def CellEnc.wf : CellEnc → Prop
  | .rawCell s => '"' ∉ s ∧ ',' ∉ s
  | .quotedCell s => '"' ∉ s

/-- The emitted cell `part` parses back to the field content `w`: the
cell is either raw (comma- and quote-free) or wholly quoted with a
quote-free body. -/
def CellOk (part w : List Char) : Prop :=
  (part = w ∧ '"' ∉ w ∧ ',' ∉ w) ∨ (part = '"' :: (w ++ ['"']) ∧ '"' ∉ w)

/-- A character list safe to emit unquoted in a CSV line and to survive
the import-side trimming unchanged. -/
def cleanCsvText (l : List Char) : Prop :=
  ',' ∉ l ∧ '"' ∉ l ∧ '\n' ∉ l ∧ NoEdgeWs l

instance (l : List Char) : Decidable (cleanCsvText l) := by
  unfold cleanCsvText
  infer_instance

/-- The stored values for which the round trip reconstructs an
equivalent value: booleans store `"true"`/`"false"`; date strings are
empty or format to a clean cell; every other non-relation value is a
string free of quotes and newlines with no edge whitespace (embedded
commas are allowed). -/
def goodFieldValue (fmtDate : String → String) (t : FieldType) (v : JsValue) : Prop :=
  match t with
  | .boolean => v = .str "true" ∨ v = .str "false"
  | .date =>
    match v with
    | .str s => s = "" ∨ (s ≠ "" ∧ cleanCsvText (fmtDate s).data)
    | _ => False
  | _ =>
    match v with
    | .str s => '"' ∉ s.data ∧ '\n' ∉ s.data ∧ NoEdgeWs s.data
    | _ => False

instance (fmtDate : String → String) (t : FieldType) (v : JsValue) :
    Decidable (goodFieldValue fmtDate t v) :=
  match t, v with
  | .boolean, v => inferInstanceAs (Decidable (v = JsValue.str "true" ∨ v = JsValue.str "false"))
  | .date, .str s =>
      inferInstanceAs (Decidable (s = "" ∨ (s ≠ "" ∧ cleanCsvText (fmtDate s).data)))
  | .date, .undefined
  | .date, .null
  | .date, .arr _
  | .date, .num _
  | .date, .boolean _ => isFalse (fun h => h)
  | .text, .str s
  | .number, .str s
  | .textarea, .str s
  | .project, .str s
  | .user, .str s
  | .image, .str s
  | .file, .str s =>
      inferInstanceAs (Decidable ('"' ∉ s.data ∧ '\n' ∉ s.data ∧ NoEdgeWs s.data))
  | .text, .undefined
  | .text, .null
  | .text, .arr _
  | .text, .num _
  | .text, .boolean _
  | .number, .undefined
  | .number, .null
  | .number, .arr _
  | .number, .num _
  | .number, .boolean _
  | .textarea, .undefined
  | .textarea, .null
  | .textarea, .arr _
  | .textarea, .num _
  | .textarea, .boolean _
  | .project, .undefined
  | .project, .null
  | .project, .arr _
  | .project, .num _
  | .project, .boolean _
  | .user, .undefined
  | .user, .null
  | .user, .arr _
  | .user, .num _
  | .user, .boolean _
  | .image, .undefined
  | .image, .null
  | .image, .arr _
  | .image, .num _
  | .image, .boolean _
  | .file, .undefined
  | .file, .null
  | .file, .arr _
  | .file, .num _
  | .file, .boolean _ => isFalse (fun h => h)

/-- The value the import reconstructs for a stored value `v`: date
values come back as their locale-formatted string, everything else
identically. -/
def expectedImportValue (fmtDate : String → String) (f : FieldDef) (v : JsValue) : JsValue :=
  if f.type = .date then (if jsTruthy v then .str (fmtDate (jsToString v)) else .str "")
  else v

-- ---------------------------------------------------------------------------
-- Helper lemmas: required-field validation
-- ---------------------------------------------------------------------------

theorem findMissingRequired_first (data : List (String × JsValue)) :
    ∀ (pre : List FieldDef) (f : FieldDef) (post : List FieldDef),
      (∀ g ∈ pre, ¬(g.required = true ∧ isMissing (jsGet data g.key) = true)) →
      f.required = true → isMissing (jsGet data f.key) = true →
      findMissingRequired (pre ++ f :: post) data = some f.name := by
  intro pre
  induction pre with
  | nil =>
    intro f post _ hreq hmiss
    simp only [List.nil_append, findMissingRequired]
    rw [if_pos ⟨hreq, hmiss⟩]
  | cons g gs ih =>
    intro f post hpre hreq hmiss
    have hg := hpre g (by simp)
    simp only [List.cons_append, findMissingRequired]
    rw [if_neg hg]
    exact ih f post (fun g2 hg2 => hpre g2 (by simp [hg2])) hreq hmiss

theorem findMissingRequired_none (data : List (String × JsValue)) :
    ∀ (fields : List FieldDef),
      (∀ f ∈ fields, f.required = true → isMissing (jsGet data f.key) = false) →
      findMissingRequired fields data = none := by
  intro fields
  induction fields with
  | nil => intro _; rfl
  | cons f fs ih =>
    intro h
    simp only [findMissingRequired]
    rw [if_neg]
    · exact ih (fun g hg hr => h g (by simp [hg]) hr)
    · rintro ⟨h1, h2⟩
      have := h f (by simp) h1
      rw [this] at h2
      exact Bool.false_ne_true h2

-- ---------------------------------------------------------------------------
-- Claim theorems: C7, C10, C4, C8, C9
-- ---------------------------------------------------------------------------

/-- C7: `canEditResource` is a pure total predicate: admins and managers
can edit every resource; a plain user can edit a resource iff its
`createdBy` equals the user's username. -/
theorem c7_canEditResource_spec (u : User) (r : ResourceItem) :
    ((u.role = .admin ∨ u.role = .manager) → canEditResource u r = true)
    ∧ (u.role = .user → (canEditResource u r = true ↔ r.createdBy = u.username)) := by
  constructor
  · intro h
    simp [canEditResource, h]
  · intro h
    simp [canEditResource, h]

/-- Witness for C7 at a concrete admin, a concrete plain user editing a
stranger's resource, and a concrete plain user editing their own. -/
theorem c7_canEditResource_witness :
    canEditResource ⟨"u1", "alice", "a@x", none, .admin⟩ ⟨"r1", "c1", [], "bob", 0⟩ = true
    ∧ (canEditResource ⟨"u2", "carol", "c@x", none, .user⟩ ⟨"r1", "c1", [], "bob", 0⟩ = true
        ↔ ("bob" : String) = "carol")
    ∧ (canEditResource ⟨"u3", "bob", "b@x", none, .user⟩ ⟨"r1", "c1", [], "bob", 0⟩ = true
        ↔ ("bob" : String) = "bob") :=
  ⟨(c7_canEditResource_spec ⟨"u1", "alice", "a@x", none, .admin⟩ ⟨"r1", "c1", [], "bob", 0⟩).1
      (Or.inl rfl),
   (c7_canEditResource_spec ⟨"u2", "carol", "c@x", none, .user⟩ ⟨"r1", "c1", [], "bob", 0⟩).2 rfl,
   (c7_canEditResource_spec ⟨"u3", "bob", "b@x", none, .user⟩ ⟨"r1", "c1", [], "bob", 0⟩).2 rfl⟩

/-- C10: the manual-save required-field check rejects exactly the values
`undefined`, the empty string, and the zero-length array; `null`, the
number 0 and the boolean false all pass, and a required field holding
`null` lets the save proceed to the store write. -/
theorem c10_required_check_rejects_only_undef_empty_arr (v : JsValue) :
    (isMissing v = true ↔ (v = .undefined ∨ v = .str "" ∨ v = .arr []))
    ∧ isMissing .null = false
    ∧ isMissing (.num 0) = false
    ∧ isMissing (.boolean false) = false
    ∧ formSave [⟨"f1", "Name", "k", .text, true⟩] ⟨"r1", "c1", [("k", .null)], "u", 0⟩
        = (none, [⟨"r1", "c1", [("k", .null)], "u", 0⟩]) := by
  refine ⟨?_, rfl, rfl, rfl, by decide⟩
  cases v <;> simp [isMissing]

/-- C4: the form save path fails before any store write when some
required field is missing or empty, reporting the display name of the
first such field in schema order, regardless of the other fields; when
no required field is missing the save proceeds to the store write. -/
theorem c4_first_missing_required_field_wins (fields : List FieldDef) (r : ResourceItem) :
    (∀ pre f post,
        fields = pre ++ f :: post →
        f.required = true →
        isMissing (jsGet r.data f.key) = true →
        (∀ g ∈ pre, ¬(g.required = true ∧ isMissing (jsGet r.data g.key) = true)) →
        formSave fields r = (some f.name, []))
    ∧ ((∀ f ∈ fields, f.required = true → isMissing (jsGet r.data f.key) = false) →
        formSave fields r = (none, [r])) := by
  constructor
  · intro pre f post heq hreq hmiss hpre
    unfold formSave
    rw [heq, findMissingRequired_first r.data pre f post hpre hreq hmiss]
  · intro h
    unfold formSave
    rw [findMissingRequired_none r.data fields h]

/-- Witness for C4: a category whose first field is optional, second
field required-and-missing, third also required-and-missing; the second
field's display name is reported and nothing is written; and a record
with all required fields present proceeds. -/
theorem c4_witness :
    formSave
      [⟨"g", "G", "gk", .text, false⟩, ⟨"f", "F", "fk", .text, true⟩, ⟨"h", "H", "hk", .text, true⟩]
      ⟨"r1", "c1", [], "u", 0⟩ = (some "F", [])
    ∧ formSave [⟨"g", "G", "gk", .text, true⟩]
        ⟨"r2", "c1", [("gk", .str "Laptop")], "u", 0⟩
        = (none, [⟨"r2", "c1", [("gk", .str "Laptop")], "u", 0⟩]) :=
  ⟨(c4_first_missing_required_field_wins
      [⟨"g", "G", "gk", .text, false⟩, ⟨"f", "F", "fk", .text, true⟩, ⟨"h", "H", "hk", .text, true⟩]
      ⟨"r1", "c1", [], "u", 0⟩).1
      [⟨"g", "G", "gk", .text, false⟩] ⟨"f", "F", "fk", .text, true⟩ [⟨"h", "H", "hk", .text, true⟩]
      rfl rfl (by decide) (by decide),
   (c4_first_missing_required_field_wins [⟨"g", "G", "gk", .text, true⟩]
      ⟨"r2", "c1", [("gk", .str "Laptop")], "u", 0⟩).2 (by decide)⟩

/-- C8: when another project already holds the same code (and the
duplicate-check query succeeds), the project save reports the duplicate
as a validation error and the store upsert is never invoked. -/
theorem c8_duplicate_code_aborts_before_store (table : List Project) (code name : String)
    (excludeId : Option String) (p : Project)
    (hp : p ∈ table) (hcode : p.code = code)
    (hex : match excludeId with | none => True | some e => p.id ≠ e)
    (hc : jsTrim code ≠ "") (hn : jsTrim name ≠ "") :
    projectHandleSave code name (.ok (runCodeQuery table code excludeId)) = (.errDuplicate, false) := by
  unfold projectHandleSave
  rw [if_neg hc, if_neg hn, if_pos]
  show checkCodeExists _ = true
  unfold checkCodeExists
  simp only [decide_eq_true_eq]
  have hmem : p ∈ table.filter (fun q =>
      q.code == code && (match excludeId with
                         | none => true
                         | some e => q.id != e)) := by
    rw [List.mem_filter]
    refine ⟨hp, ?_⟩
    rw [Bool.and_eq_true, beq_iff_eq]
    refine ⟨hcode, ?_⟩
    cases excludeId with
    | none => rfl
    | some e => simpa [bne_iff_ne] using hex
  have : p.id ∈ runCodeQuery table code excludeId := by
    unfold runCodeQuery
    exact List.mem_map_of_mem _ hmem
  exact List.length_pos_of_mem this

/-- Witness for C8: a table already holding code `PRJ-001`; saving a new
project with that code aborts with the duplicate error and no write. -/
theorem c8_witness :
    projectHandleSave "PRJ-001" "New project"
      (.ok (runCodeQuery [⟨"p1", "First", "PRJ-001", "", "active", ""⟩] "PRJ-001" none))
      = (.errDuplicate, false) :=
  c8_duplicate_code_aborts_before_store
    [⟨"p1", "First", "PRJ-001", "", "active", ""⟩] "PRJ-001" "New project" none
    ⟨"p1", "First", "PRJ-001", "", "active", ""⟩
    (by decide) rfl trivial (by decide) (by decide)

/-- C9 (implicit): `checkCodeExists` fails open — a store error during
the duplicate-code query reports the code as not existing, so the
subsequent save is never blocked by a query error. -/
theorem c9_check_code_exists_fails_open (e : String) (code name : String) :
    checkCodeExists (.error e) = false
    ∧ (jsTrim code ≠ "" → jsTrim name ≠ "" →
        projectHandleSave code name (.error e) = (.saved, true)) := by
  refine ⟨rfl, ?_⟩
  intro hc hn
  unfold projectHandleSave
  rw [if_neg hc, if_neg hn]
  rfl

/-- Witness for C9: a concrete store error during the duplicate check
reports "not existing" and the save proceeds to the upsert. -/
theorem c9_witness :
    checkCodeExists (.error "network down") = false
    ∧ projectHandleSave "PRJ-002" "Proj" (.error "network down") = (.saved, true) :=
  ⟨(c9_check_code_exists_fails_open "network down" "PRJ-002" "Proj").1,
   (c9_check_code_exists_fails_open "network down" "PRJ-002" "Proj").2 (by decide) (by decide)⟩

-- ---------------------------------------------------------------------------
-- Helper lemmas: filter engine
-- ---------------------------------------------------------------------------

theorem resourceMatches_dates_only (cat : Option (List FieldDef)) (x y : Nat) (r : ResourceItem) :
    resourceMatches cat ⟨"", some x, some y, []⟩ r
      = (!(decide (r.createdAt < startOfDayMs x)) && !(decide (endOfDayMs y < r.createdAt))) := by
  by_cases h1 : r.createdAt < startOfDayMs x
  · simp [resourceMatches, h1]
  · by_cases h2 : endOfDayMs y < r.createdAt
    · simp [resourceMatches, h1, h2]
    · cases cat <;> simp [resourceMatches, h1, h2, applyFieldFilters]

theorem resourceMatches_fields_only (fields : List FieldDef) (ffs : List (String × String)) (r : ResourceItem) :
    resourceMatches (some fields) ⟨"", none, none, ffs⟩ r = applyFieldFilters fields r ffs := by
  simp [resourceMatches]

theorem filterStep_relation (fields : List FieldDef) (fd : FieldDef) (k v : String) (r : ResourceItem)
    (hv : v ≠ "") (hfind : findField fields k = some fd)
    (hty : fd.type = .user ∨ fd.type = .project) :
    (∀ xs, jsGet r.data k = .arr xs →
        filterStep fields r k v
          = (if xs.contains "all" then .retTrue
             else if xs.contains v then .next else .retFalse))
    ∧ (∀ s, jsGet r.data k = .str s →
        filterStep fields r k v = (if s = "all" ∨ s = v then .next else .retFalse)) := by
  constructor
  · intro xs hxs
    unfold filterStep
    rw [if_neg hv]
    simp only [hxs, hfind]
    rcases hty with h | h <;> rw [h] <;> simp
  · intro s hs
    unfold filterStep
    rw [if_neg hv]
    simp only [hs, hfind]
    rcases hty with h | h <;> rw [h] <;>
      · by_cases hall : s = "all" ∨ s = v <;> simp [jsToString, hall]

-- ---------------------------------------------------------------------------
-- Claim theorems: C5, C2
-- ---------------------------------------------------------------------------

/-- C5: with only a date range active, a resource passes iff its
`createdAt` lies between the start of the from-day and the end of the
to-day, both inclusive at day granularity; with from-day = to-day = X it
passes iff `createdAt` falls on day X. -/
theorem c5_date_filter_inclusive_day_bounds (cat : Option (List FieldDef)) (x y : Nat) (r : ResourceItem) :
    (resourceMatches cat ⟨"", some x, some y, []⟩ r = true
       ↔ (x ≤ r.createdAt / msPerDay ∧ r.createdAt / msPerDay ≤ y))
    ∧ (resourceMatches cat ⟨"", some x, some x, []⟩ r = true
       ↔ r.createdAt / msPerDay = x) := by
  constructor
  · rw [resourceMatches_dates_only]
    simp only [Bool.and_eq_true, Bool.not_eq_true', decide_eq_false_iff_not, Nat.not_lt,
      startOfDayMs, endOfDayMs, msPerDay]
    omega
  · rw [resourceMatches_dates_only]
    simp only [Bool.and_eq_true, Bool.not_eq_true', decide_eq_false_iff_not, Nat.not_lt,
      startOfDayMs, endOfDayMs, msPerDay]
    omega

/-- Witness for C5: a record created 100000000 ms into the epoch (day 1)
is matched by the single-day filter from = to = day 1. -/
theorem c5_witness :
    resourceMatches none ⟨"", some 1, some 1, []⟩ ⟨"r", "c", [], "u", 100000000⟩ = true :=
  ((c5_date_filter_inclusive_day_bounds none 1 1 ⟨"r", "c", [], "u", 100000000⟩).2).mpr (by decide)

/-- C2: for a relation (user/project) field filter with a non-empty
filter value: a stored array containing the wildcard `"all"` always
matches; a stored array without `"all"` matches iff the filter value is
an element; a stored scalar matches iff it equals `"all"` or the filter
value. -/
theorem c2_relation_wildcard_dominance (fields : List FieldDef) (fd : FieldDef) (k v : String)
    (r : ResourceItem) (hv : v ≠ "") (hfind : findField fields k = some fd)
    (hty : fd.type = .user ∨ fd.type = .project) :
    (∀ xs, jsGet r.data k = .arr xs → "all" ∈ xs →
        resourceMatches (some fields) ⟨"", none, none, [(k, v)]⟩ r = true)
    ∧ (∀ xs, jsGet r.data k = .arr xs → "all" ∉ xs →
        (resourceMatches (some fields) ⟨"", none, none, [(k, v)]⟩ r = true ↔ v ∈ xs))
    ∧ (∀ s, jsGet r.data k = .str s →
        (resourceMatches (some fields) ⟨"", none, none, [(k, v)]⟩ r = true ↔ (s = "all" ∨ s = v))) := by
  have hstep := filterStep_relation fields fd k v r hv hfind hty
  refine ⟨?_, ?_, ?_⟩
  · intro xs hxs hall
    rw [resourceMatches_fields_only]
    simp only [applyFieldFilters, hstep.1 xs hxs]
    rw [if_pos (by simpa using hall)]
  · intro xs hxs hall
    rw [resourceMatches_fields_only]
    simp only [applyFieldFilters, hstep.1 xs hxs]
    rw [if_neg (by simpa using hall)]
    by_cases hvin : v ∈ xs
    · rw [if_pos (by simpa using hvin)]
      simp [applyFieldFilters, hvin]
    · rw [if_neg (by simpa using hvin)]
      simp [hvin]
  · intro s hs
    rw [resourceMatches_fields_only]
    simp only [applyFieldFilters, hstep.2 s hs]
    by_cases hall : s = "all" ∨ s = v
    · rw [if_pos hall]
      simp [applyFieldFilters, hall]
    · rw [if_neg hall]
      simp [hall]

/-- Witness for C2: a record whose relation field stores `["all"]` is
matched by a filter for the specific project id `p9`. -/
theorem c2_witness :
    resourceMatches (some [⟨"f1", "Du an", "pk", .project, false⟩]) ⟨"", none, none, [("pk", "p9")]⟩
      ⟨"r1", "c1", [("pk", .arr ["all"])], "u", 0⟩ = true :=
  (c2_relation_wildcard_dominance [⟨"f1", "Du an", "pk", .project, false⟩]
      ⟨"f1", "Du an", "pk", .project, false⟩ "pk" "p9"
      ⟨"r1", "c1", [("pk", .arr ["all"])], "u", 0⟩
      (by decide) (by decide) (Or.inr rfl)).1 ["all"] (by decide) (by decide)

-- ---------------------------------------------------------------------------
-- Helper lemmas and claim theorems: C1
-- ---------------------------------------------------------------------------

theorem applyFieldFilters_iff (fields : List FieldDef) (r : ResourceItem) :
    ∀ (ffs : List (String × String)),
      applyFieldFilters fields r ffs = true ↔
        ((∀ kv ∈ ffs, fieldFilterPasses fields r kv = true)
          ∨ (∃ pre kv post, ffs = pre ++ kv :: post
              ∧ (∀ kv2 ∈ pre, fieldFilterPasses fields r kv2 = true)
              ∧ wildcardHit fields r kv = true)) := by
  intro ffs
  induction ffs with
  | nil =>
    simp [applyFieldFilters]
  | cons hd tl ih =>
    obtain ⟨k, v⟩ := hd
    simp only [applyFieldFilters]
    cases hstep : filterStep fields r k v with
    | next =>
      rw [ih]
      constructor
      · rintro (hall | ⟨pre, kv, post, heq, hpre, hw⟩)
        · left
          intro kv hkv
          rcases List.mem_cons.1 hkv with h | h
          · subst h
            simp [fieldFilterPasses, hstep]
          · exact hall kv h
        · right
          refine ⟨(k, v) :: pre, kv, post, by rw [heq, List.cons_append], ?_, hw⟩
          intro kv2 h2
          rcases List.mem_cons.1 h2 with h | h
          · subst h
            simp [fieldFilterPasses, hstep]
          · exact hpre kv2 h
      · rintro (hall | ⟨pre, kv, post, heq, hpre, hw⟩)
        · left
          exact fun kv h => hall kv (List.mem_cons_of_mem _ h)
        · cases pre with
          | nil =>
            simp only [List.nil_append, List.cons.injEq] at heq
            exfalso
            rw [← heq.1] at hw
            simp [wildcardHit, hstep] at hw
          | cons p ps =>
            simp only [List.cons_append, List.cons.injEq] at heq
            right
            refine ⟨ps, kv, post, heq.2, ?_, hw⟩
            intro kv2 h2
            exact hpre kv2 (List.mem_cons_of_mem _ h2)
    | retFalse =>
      constructor
      · intro h
        exact absurd h (by simp)
      · rintro (hall | ⟨pre, kv, post, heq, hpre, hw⟩)
        · have hthis := hall (k, v) (List.mem_cons_self _ _)
          simp [fieldFilterPasses, hstep] at hthis
        · cases pre with
          | nil =>
            simp only [List.nil_append, List.cons.injEq] at heq
            rw [← heq.1] at hw
            simp [wildcardHit, hstep] at hw
          | cons p ps =>
            simp only [List.cons_append, List.cons.injEq] at heq
            have hthis := hpre p (List.mem_cons_self _ _)
            rw [← heq.1] at hthis
            simp [fieldFilterPasses, hstep] at hthis
    | retTrue =>
      constructor
      · intro _
        right
        exact ⟨[], (k, v), tl, rfl, by simp, by simp [wildcardHit, hstep]⟩
      · intro _
        rfl

theorem resourceMatches_iff (fields : List FieldDef) (flt : Filters) (r : ResourceItem) :
    resourceMatches (some fields) flt r = true
      ↔ (creatorPasses flt r = true ∧ datePasses flt r = true
          ∧ applyFieldFilters fields r flt.fieldFilters = true) := by
  rcases flt with ⟨c, df, dt, ffs⟩
  unfold resourceMatches creatorPasses datePasses
  simp only []
  by_cases h1 : c ≠ "" ∧ ¬ strContains (jsToLower r.createdBy) (jsToLower c) = true
  · rw [if_pos h1]
    constructor
    · intro h
      exact absurd h (by simp)
    · rintro ⟨hcp, _, _⟩
      rcases of_decide_eq_true hcp with h | h
      · exact absurd h h1.1
      · exact absurd h h1.2
  · rw [if_neg h1]
    have hcp : decide (c = "" ∨ strContains (jsToLower r.createdBy) (jsToLower c) = true) = true := by
      apply decide_eq_true
      by_cases hc : c = ""
      · exact Or.inl hc
      · rcases not_and_or.mp h1 with h | h
        · exact absurd hc (by simpa using h)
        · exact Or.inr (by simpa using h)
    rcases df with _ | d1
    · rcases dt with _ | d2
      · simp [hcp]
      · by_cases h3 : endOfDayMs d2 < r.createdAt
        · simp [h3, hcp, Nat.not_le_of_lt h3]
        · simp [h3, hcp, Nat.le_of_not_lt h3]
    · rcases dt with _ | d2
      · by_cases h2 : r.createdAt < startOfDayMs d1
        · simp [h2, hcp, Nat.not_le_of_lt h2]
        · simp [h2, hcp, Nat.le_of_not_lt h2]
      · by_cases h2 : r.createdAt < startOfDayMs d1
        · simp [h2, hcp, Nat.not_le_of_lt h2]
        · by_cases h3 : endOfDayMs d2 < r.createdAt
          · simp [h2, h3, hcp, Nat.le_of_not_lt h2, Nat.not_le_of_lt h3]
          · simp [h2, h3, hcp, Nat.le_of_not_lt h2, Nat.le_of_not_lt h3]

/-- C1 counterexample: a record whose relation field stores the wildcard
array `["all"]` is included by the filter map `p = "p1", t = "zzz"` even
though its text field value `"x"` fails the active text filter `"zzz"` —
the wildcard `return true` of DataManager.tsx line 735 exits the whole
predicate, so the filters are not conjoined as the claim states. -/
theorem c1_counterexample :
    resourceMatches
        (some [⟨"f1", "Du an", "p", .project, false⟩, ⟨"f2", "Ghi chu", "t", .text, false⟩])
        ⟨"", none, none, [("p", "p1"), ("t", "zzz")]⟩
        ⟨"r1", "c1", [("p", .arr ["all"]), ("t", .str "x")], "u", 0⟩ = true
    ∧ fieldFilterPasses
        [⟨"f1", "Du an", "p", .project, false⟩, ⟨"f2", "Ghi chu", "t", .text, false⟩]
        ⟨"r1", "c1", [("p", .arr ["all"]), ("t", .str "x")], "u", 0⟩ ("t", "zzz") = false := by
  decide

/-- C1 (amended): a resource is included iff it passes the creator and
date filters and, scanning the per-field filters in filter-map order,
either every active per-field filter is satisfied, or some relation-type
filter hits a stored array containing the wildcard `"all"` and every
filter before it is satisfied — the wildcard short-circuits acceptance,
skipping the remaining filters. When no wildcard is hit, the active
filters are purely conjoined. -/
theorem c1_filters_conjoined_up_to_wildcard (fields : List FieldDef) (flt : Filters) (r : ResourceItem) :
    resourceMatches (some fields) flt r = true ↔
      (creatorPasses flt r = true ∧ datePasses flt r = true ∧
        ((∀ kv ∈ flt.fieldFilters, fieldFilterPasses fields r kv = true)
          ∨ (∃ pre kv post, flt.fieldFilters = pre ++ kv :: post
              ∧ (∀ kv2 ∈ pre, fieldFilterPasses fields r kv2 = true)
              ∧ wildcardHit fields r kv = true))) := by
  rw [resourceMatches_iff]
  rw [applyFieldFilters_iff fields r flt.fieldFilters]

/-- Witness for the amended C1: the wildcard disjunct includes a record
with a single active relation filter on a stored `["all"]`. -/
theorem c1_witness :
    resourceMatches (some [⟨"f1", "Du an", "p", .project, false⟩])
      ⟨"", none, none, [("p", "p1")]⟩ ⟨"r9", "c1", [("p", .arr ["all"])], "u", 5⟩ = true :=
  (c1_filters_conjoined_up_to_wildcard [⟨"f1", "Du an", "p", .project, false⟩]
      ⟨"", none, none, [("p", "p1")]⟩ ⟨"r9", "c1", [("p", .arr ["all"])], "u", 5⟩).mpr
    ⟨by decide, by decide, Or.inr ⟨[], ("p", "p1"), [], rfl, by decide, by decide⟩⟩

-- ---------------------------------------------------------------------------
-- Helper lemmas and claim theorem: C6
-- ---------------------------------------------------------------------------

theorem csvSplitAux_no_quote (l : List Char) :
    ∀ (q : Bool) (col : List Char) (acc : List (List Char)),
      (∀ f ∈ acc, '"' ∉ f) → '"' ∉ col →
      ∀ f ∈ csvSplitAux l q col acc, '"' ∉ f := by
  induction l with
  | nil =>
    intro q col acc hacc hcol f hf
    simp only [csvSplitAux] at hf
    rcases List.mem_append.1 hf with h | h
    · exact hacc f h
    · rw [List.mem_singleton.1 h]
      exact hcol
  | cons c cs ih =>
    intro q col acc hacc hcol f hf
    simp only [csvSplitAux] at hf
    by_cases h1 : c = '"'
    · rw [if_pos h1] at hf
      exact ih _ _ _ hacc hcol f hf
    · rw [if_neg h1] at hf
      by_cases h2 : c = ',' ∧ q = false
      · rw [if_pos h2] at hf
        refine ih _ _ _ ?_ (by simp) f hf
        intro g hg
        rcases List.mem_append.1 hg with h | h
        · exact hacc g h
        · rw [List.mem_singleton.1 h]
          exact hcol
      · rw [if_neg h2] at hf
        refine ih _ _ _ hacc ?_ f hf
        intro hmem
        rcases List.mem_append.1 hmem with h | h
        · exact hcol h
        · exact h1 (List.mem_singleton.1 h).symm

theorem csvSplitAux_length (l : List Char) :
    ∀ (q : Bool) (col : List Char) (acc : List (List Char)),
      (csvSplitAux l q col acc).length = acc.length + 1 + topLevelCommas l q := by
  induction l with
  | nil =>
    intro q col acc
    simp [csvSplitAux, topLevelCommas]
  | cons c cs ih =>
    intro q col acc
    simp only [csvSplitAux, topLevelCommas]
    by_cases h1 : c = '"'
    · rw [if_pos h1, if_pos h1, ih]
    · rw [if_neg h1, if_neg h1]
      by_cases h2 : c = ',' ∧ q = false
      · rw [if_pos h2, if_pos h2, ih]
        simp only [List.length_append, List.length_singleton]
        omega
      · rw [if_neg h2, if_neg h2, ih]

theorem csvSplitAux_join (l : List Char) :
    ∀ (q : Bool) (col : List Char) (acc : List (List Char)),
      (csvSplitAux l q col acc).flatten = acc.flatten ++ col ++ contentChars l q := by
  induction l with
  | nil =>
    intro q col acc
    simp [csvSplitAux, contentChars]
  | cons c cs ih =>
    intro q col acc
    simp only [csvSplitAux, contentChars]
    by_cases h1 : c = '"'
    · rw [if_pos h1, if_pos h1, ih]
    · rw [if_neg h1, if_neg h1]
      by_cases h2 : c = ',' ∧ q = false
      · rw [if_pos h2, if_pos h2, ih]
        simp
      · rw [if_neg h2, if_neg h2, ih]
        simp

/-- C6: the line parser consumes every double quote as a toggle of the
in-quotes state (no quote ever appears in a parsed field), splits at
exactly the commas seen while the toggle is off (so a comma inside a
quoted region never splits), and keeps every other character — including
in-quote commas — as field content. -/
theorem c6_parseCSVLine_quote_toggle :
    (∀ (s : String), ∀ f ∈ parseCSVLine s, '"' ∉ f.data)
    ∧ (∀ (s : String), (parseCSVLine s).length = 1 + topLevelCommas s.data false)
    ∧ (∀ (s : String), ((parseCSVLine s).map String.data).flatten = contentChars s.data false) := by
  refine ⟨?_, ?_, ?_⟩
  · intro s f hf
    unfold parseCSVLine at hf
    rcases List.mem_map.1 hf with ⟨l, hl, rfl⟩
    exact csvSplitAux_no_quote s.data false [] [] (by simp) (by simp) l hl
  · intro s
    unfold parseCSVLine
    rw [List.length_map, csvSplitAux_length]
    simp
  · intro s
    unfold parseCSVLine
    rw [List.map_map]
    have hid : (String.data ∘ String.mk) = id := rfl
    rw [hid, List.map_id, csvSplitAux_join]
    simp

/-- Witness for C6 on the line `a,"b,c"`: the quoted comma does not
split and the parsed field `b,c` carries no quote character. -/
theorem c6_witness :
    '"' ∉ ("b,c" : String).data
    ∧ (parseCSVLine "a,\"b,c\"").length = 1 + topLevelCommas ("a,\"b,c\"" : String).data false :=
  ⟨c6_parseCSVLine_quote_toggle.1 "a,\"b,c\"" "b,c" (by decide),
   c6_parseCSVLine_quote_toggle.2.1 "a,\"b,c\""⟩

-- ---------------------------------------------------------------------------
-- Helper lemmas for the CSV round trip (C3): trimming and quote stripping
-- ---------------------------------------------------------------------------

theorem head_false_of_dropWhile_eq_self (p : Char → Bool) (x : Char) (xs : List Char)
    (h : (x :: xs).dropWhile p = x :: xs) : p x = false := by
  by_contra hx
  rw [List.dropWhile_cons, if_pos (Bool.of_not_eq_false hx)] at h
  have := (List.dropWhile_suffix (l := xs) p).length_le
  rw [h] at this
  simp at this

theorem noEdgeWs_iff (l : List Char) :
    NoEdgeWs l ↔ (l.dropWhile isJsWhitespace = l ∧ l.reverse.dropWhile isJsWhitespace = l.reverse) := by
  unfold NoEdgeWs jsTrimChars
  constructor
  · intro h
    have hsub1 : (l.dropWhile isJsWhitespace).length ≤ l.length := (List.dropWhile_suffix isJsWhitespace).length_le
    have hsub2 : ((l.dropWhile isJsWhitespace).reverse.dropWhile isJsWhitespace).length
        ≤ (l.dropWhile isJsWhitespace).length := by
      have := (List.dropWhile_suffix (l := (l.dropWhile isJsWhitespace).reverse) isJsWhitespace).length_le
      simpa using this
    have hlen : ((l.dropWhile isJsWhitespace).reverse.dropWhile isJsWhitespace).reverse.length = l.length := by
      rw [h]
    rw [List.length_reverse] at hlen
    have hlen1 : (l.dropWhile isJsWhitespace).length = l.length := by omega
    have heq1 : l.dropWhile isJsWhitespace = l :=
      (List.dropWhile_suffix isJsWhitespace).eq_of_length hlen1
    rw [heq1] at h
    refine ⟨heq1, ?_⟩
    have := congrArg List.reverse h
    rwa [List.reverse_reverse] at this
  · rintro ⟨h1, h2⟩
    rw [h1, h2, List.reverse_reverse]

theorem noEdgeWs_nil : NoEdgeWs [] := by
  decide

theorem noEdgeWs_append_sep (a b : List Char) (c : Char) (hc : isJsWhitespace c = false)
    (ha : NoEdgeWs a) (hb : NoEdgeWs b) : NoEdgeWs (a ++ c :: b) := by
  rw [noEdgeWs_iff] at ha hb ⊢
  constructor
  · cases a with
    | nil =>
      simp only [List.nil_append, List.dropWhile_cons, hc]
      simp
    | cons x xs =>
      have hx := head_false_of_dropWhile_eq_self _ _ _ ha.1
      simp only [List.cons_append, List.dropWhile_cons, hx]
      simp
  · have hrw : (a ++ c :: b).reverse = b.reverse ++ c :: a.reverse := by
      rw [List.reverse_append, List.reverse_cons, List.append_assoc]
      simp
    rw [hrw]
    cases hb2 : b.reverse with
    | nil =>
      simp only [List.nil_append, List.dropWhile_cons, hc]
      simp
    | cons y ys =>
      have hy : isJsWhitespace y = false := by
        apply head_false_of_dropWhile_eq_self isJsWhitespace y ys
        rw [← hb2]
        exact hb.2
      simp only [List.cons_append, List.dropWhile_cons, hy]
      simp

theorem noEdgeWs_edge_chars (x y : Char) (mid : List Char)
    (hx : isJsWhitespace x = false) (hy : isJsWhitespace y = false) :
    NoEdgeWs (x :: (mid ++ [y])) := by
  rw [noEdgeWs_iff]
  constructor
  · simp [List.dropWhile_cons, hx]
  · have hrw : (x :: (mid ++ [y])).reverse = y :: (mid.reverse ++ [x]) := by
      simp [List.reverse_cons, List.reverse_append]
    rw [hrw]
    simp [List.dropWhile_cons, hy]

theorem jsTrimChars_bom (l : List Char) :
    jsTrimChars ('\uFEFF' :: l) = jsTrimChars l := by
  unfold jsTrimChars
  rw [List.dropWhile_cons, if_pos (by decide)]

theorem mem_of_getLast_eq_some (l : List Char) (c : Char) (h : l.getLast? = some c) : c ∈ l := by
  induction l with
  | nil => simp at h
  | cons x xs ih =>
    cases xs with
    | nil =>
      simp [List.getLast?] at h
      simp [h]
    | cons y ys =>
      rw [List.getLast?_cons_cons] at h
      exact List.mem_cons_of_mem _ (ih h)

theorem not_eq_of_not_mem_head {x c : Char} {cs : List Char} (h : x ∉ c :: cs) : ¬ c = x :=
  fun hc => h (List.mem_cons.2 (Or.inl hc.symm))

theorem not_mem_of_not_mem_cons {x c : Char} {cs : List Char} (h : x ∉ c :: cs) : x ∉ cs :=
  fun hm => h (List.mem_cons_of_mem _ hm)

theorem stripOuterQuotesChars_no_quote (l : List Char) (h : '"' ∉ l) :
    stripOuterQuotesChars l = l := by
  unfold stripOuterQuotesChars
  have h1 : ¬ l.head? = some '"' := by
    intro hh
    cases l with
    | nil => simp at hh
    | cons c cs =>
      simp only [List.head?_cons, Option.some.injEq] at hh
      exact (not_eq_of_not_mem_head h) hh
  rw [if_neg h1]
  show (if l.getLast? = some '"' then l.dropLast else l) = l
  rw [if_neg (fun hl => h (mem_of_getLast_eq_some l '"' hl))]

theorem escapeQuotesChars_no_quote (l : List Char) (h : '"' ∉ l) :
    escapeQuotesChars l = l := by
  induction l with
  | nil => rfl
  | cons c cs ih =>
    simp only [escapeQuotesChars]
    rw [if_neg (not_eq_of_not_mem_head h)]
    rw [ih (not_mem_of_not_mem_cons h)]

-- ---------------------------------------------------------------------------
-- Helper lemmas for the CSV round trip (C3): line splitting
-- ---------------------------------------------------------------------------

theorem splitLines_no_nl (l : List Char) (h : '\n' ∉ l) : splitLines l = [l] := by
  induction l with
  | nil => rfl
  | cons c cs ih =>
    simp only [splitLines]
    rw [if_neg (not_eq_of_not_mem_head h)]
    rw [ih (not_mem_of_not_mem_cons h)]

theorem splitLines_append_nl (a : List Char) :
    ∀ (b : List Char), '\n' ∉ a → splitLines (a ++ '\n' :: b) = a :: splitLines b := by
  induction a with
  | nil =>
    intro b _
    simp [splitLines]
  | cons c cs ih =>
    intro b h
    simp only [List.cons_append, splitLines, List.append_eq]
    rw [if_neg (not_eq_of_not_mem_head h)]
    rw [ih b (not_mem_of_not_mem_cons h)]

theorem splitLines_joinLines (lines : List (List Char)) :
    (∀ l ∈ lines, '\n' ∉ l) → lines ≠ [] → splitLines (joinLines lines) = lines := by
  induction lines with
  | nil =>
    intro _ h
    exact absurd rfl h
  | cons l ls ih =>
    intro h _
    cases ls with
    | nil => exact splitLines_no_nl l (h l (by simp))
    | cons l2 ls2 =>
      show splitLines (l ++ '\n' :: joinLines (l2 :: ls2)) = _
      rw [splitLines_append_nl l _ (h l (by simp))]
      rw [ih (fun x hx => h x (List.mem_cons_of_mem _ hx)) (by simp)]

-- ---------------------------------------------------------------------------
-- Helper lemmas for the CSV round trip (C3): parsing encoded cells
-- ---------------------------------------------------------------------------

theorem csvSplitAux_quote (cs : List Char) (q : Bool) (col : List Char) (acc : List (List Char)) :
    csvSplitAux ('"' :: cs) q col acc = csvSplitAux cs (!q) col acc := by
  simp [csvSplitAux]

theorem csvSplitAux_comma (cs : List Char) (col : List Char) (acc : List (List Char)) :
    csvSplitAux (',' :: cs) false col acc = csvSplitAux cs false [] (acc ++ [col]) := by
  simp [csvSplitAux]

theorem csvSplitAux_consume (s : List Char) :
    ∀ (rest : List Char) (q : Bool) (col : List Char) (acc : List (List Char)),
      (∀ c ∈ s, c ≠ '"' ∧ (q = true ∨ c ≠ ',')) →
      csvSplitAux (s ++ rest) q col acc = csvSplitAux rest q (col ++ s) acc := by
  induction s with
  | nil =>
    intro rest q col acc _
    simp
  | cons c cs ih =>
    intro rest q col acc h
    have hc := h c (List.mem_cons_self _ _)
    simp only [List.cons_append, csvSplitAux, List.append_eq]
    rw [if_neg hc.1]
    rw [if_neg (by
      rintro ⟨h1, h2⟩
      rcases hc.2 with h3 | h3
      · rw [h3] at h2
        exact absurd h2 (by decide)
      · exact h3 h1)]
    rw [ih rest q (col ++ [c]) acc (fun x hx => h x (List.mem_cons_of_mem _ hx))]
    rw [List.append_assoc]
    rfl

theorem csvSplitAux_cell (e : CellEnc) (he : e.wf) (rest : List Char)
    (col : List Char) (acc : List (List Char)) :
    csvSplitAux (e.encode ++ rest) false col acc = csvSplitAux rest false (col ++ e.val) acc := by
  cases e with
  | rawCell s =>
    exact csvSplitAux_consume s rest false col acc
      (fun c hc => ⟨fun h1 => he.1 (h1 ▸ hc), Or.inr (fun h2 => he.2 (h2 ▸ hc))⟩)
  | quotedCell s =>
    show csvSplitAux (('"' :: (s ++ ['"'])) ++ rest) false col acc = _
    rw [List.cons_append, csvSplitAux_quote]
    have hassoc : (s ++ ['"']) ++ rest = s ++ ('"' :: rest) := by
      rw [List.append_assoc]
      rfl
    rw [hassoc]
    rw [csvSplitAux_consume s ('"' :: rest) (!false) col acc
      (fun c hc => ⟨fun h1 => he (h1 ▸ hc), Or.inl rfl⟩)]
    rw [csvSplitAux_quote]
    rfl

theorem csvSplitAux_cells (e : CellEnc) (cells : List CellEnc) :
    ∀ (col : List Char) (acc : List (List Char)),
      e.wf → (∀ x ∈ cells, x.wf) →
      csvSplitAux (joinComma ((e :: cells).map CellEnc.encode)) false col acc
        = acc ++ ((col ++ e.val) :: cells.map CellEnc.val) := by
  induction cells generalizing e with
  | nil =>
    intro col acc he _
    show csvSplitAux (joinComma [e.encode]) false col acc = _
    have hj : joinComma [e.encode] = e.encode ++ [] := by simp [joinComma]
    rw [hj, csvSplitAux_cell e he [] col acc]
    simp [csvSplitAux]
  | cons e2 tl ih =>
    intro col acc he hall
    show csvSplitAux (joinComma (e.encode :: e2.encode :: tl.map CellEnc.encode)) false col acc = _
    have hjoin : joinComma (e.encode :: e2.encode :: tl.map CellEnc.encode)
        = e.encode ++ (',' :: joinComma (e2.encode :: tl.map CellEnc.encode)) := rfl
    rw [hjoin, csvSplitAux_cell e he _ col acc, csvSplitAux_comma]
    rw [← List.map_cons CellEnc.encode e2 tl]
    rw [ih e2 [] (acc ++ [col ++ e.val]) (hall e2 (List.mem_cons_self _ _))
      (fun x hx => hall x (List.mem_cons_of_mem _ hx))]
    simp

theorem csvSplitAux_cellOk_step (p w rest : List Char) (col : List Char) (acc : List (List Char))
    (h : CellOk p w) :
    csvSplitAux (p ++ rest) false col acc = csvSplitAux rest false (col ++ w) acc := by
  rcases h with ⟨heq, hq, hc⟩ | ⟨heq, hq⟩
  · rw [heq]
    exact csvSplitAux_cell (CellEnc.rawCell w) ⟨hq, hc⟩ rest col acc
  · rw [heq]
    exact csvSplitAux_cell (CellEnc.quotedCell w) hq rest col acc

theorem csvSplitAux_cellOks (pv : List Char × List Char) (pvs : List (List Char × List Char)) :
    ∀ (col : List Char) (acc : List (List Char)),
      CellOk pv.1 pv.2 → (∀ x ∈ pvs, CellOk x.1 x.2) →
      csvSplitAux (joinComma ((pv :: pvs).map Prod.fst)) false col acc
        = acc ++ ((col ++ pv.2) :: pvs.map Prod.snd) := by
  induction pvs generalizing pv with
  | nil =>
    intro col acc h _
    show csvSplitAux (joinComma [pv.1]) false col acc = _
    have hj : joinComma [pv.1] = pv.1 ++ [] := by simp [joinComma]
    rw [hj, csvSplitAux_cellOk_step pv.1 pv.2 [] col acc h]
    simp [csvSplitAux]
  | cons x xs ih =>
    intro col acc h hall
    show csvSplitAux (joinComma (pv.1 :: x.1 :: xs.map Prod.fst)) false col acc = _
    have hjoin : joinComma (pv.1 :: x.1 :: xs.map Prod.fst)
        = pv.1 ++ (',' :: joinComma (x.1 :: xs.map Prod.fst)) := rfl
    rw [hjoin, csvSplitAux_cellOk_step pv.1 pv.2 _ col acc h, csvSplitAux_comma]
    rw [← List.map_cons Prod.fst x xs]
    rw [ih x [] (acc ++ [col ++ pv.2]) (hall x (List.mem_cons_self _ _))
      (fun y hy => hall y (List.mem_cons_of_mem _ hy))]
    simp

theorem parseCSVLine_cellOks (pv : List Char × List Char) (pvs : List (List Char × List Char))
    (h : CellOk pv.1 pv.2) (hall : ∀ x ∈ pvs, CellOk x.1 x.2) :
    parseCSVLine (String.mk (joinComma ((pv :: pvs).map Prod.fst)))
      = (pv :: pvs).map (fun x => String.mk x.2) := by
  unfold parseCSVLine
  show (csvSplitAux (joinComma ((pv :: pvs).map Prod.fst)) false [] []).map String.mk = _
  rw [csvSplitAux_cellOks pv pvs [] [] h hall]
  simp

theorem joinComma_not_mem (ch : Char) (hch : ch ≠ ',') :
    ∀ (parts : List (List Char)), (∀ p ∈ parts, ch ∉ p) → ch ∉ joinComma parts := by
  intro parts
  induction parts with
  | nil =>
    intro _
    simp [joinComma]
  | cons p ps ih =>
    intro h
    cases ps with
    | nil => simpa [joinComma] using h p (by simp)
    | cons p2 ps2 =>
      show ch ∉ p ++ ',' :: joinComma (p2 :: ps2)
      intro hmem
      rcases List.mem_append.1 hmem with hm | hm
      · exact h p (by simp) hm
      · rcases List.mem_cons.1 hm with hm2 | hm2
        · exact hch hm2
        · exact ih (fun q hq => h q (List.mem_cons_of_mem _ hq)) hm2

theorem joinComma_noEdgeWs :
    ∀ (parts : List (List Char)), (∀ p ∈ parts, NoEdgeWs p) → NoEdgeWs (joinComma parts) := by
  intro parts
  induction parts with
  | nil =>
    intro _
    exact noEdgeWs_nil
  | cons p ps ih =>
    intro h
    cases ps with
    | nil => simpa [joinComma] using h p (by simp)
    | cons p2 ps2 =>
      show NoEdgeWs (p ++ ',' :: joinComma (p2 :: ps2))
      exact noEdgeWs_append_sep p _ ',' (by decide) (h p (by simp))
        (ih (fun q hq => h q (List.mem_cons_of_mem _ hq)))

theorem joinComma_two_ne_nil (a b : List Char) (rest : List (List Char)) :
    joinComma (a :: b :: rest) ≠ [] := by
  show a ++ ',' :: joinComma (b :: rest) ≠ []
  simp

-- ---------------------------------------------------------------------------
-- The per-field CSV round trip (C3)
-- ---------------------------------------------------------------------------

theorem exportCell_other_type (fmtDate : String → String) (projects : List Project)
    (users : List User) (f : FieldDef) (s : String)
    (hnb : f.type ≠ .boolean) (hnd : f.type ≠ .date)
    (hnp : f.type ≠ .project) (hnu : f.type ≠ .user)
    (hq : '"' ∉ s.data) :
    (exportCell fmtDate projects users f (.str s)).data = '"' :: (s.data ++ ['"'])
    ∧ coerceValue f projects users s = .str s := by
  constructor
  · unfold exportCell
    rw [if_neg hnb, if_neg hnd, if_neg hnu, if_neg hnp]
    show ('"' :: (escapeQuotesChars s.data ++ ['"'])) = _
    rw [escapeQuotesChars_no_quote s.data hq]
  · unfold coerceValue
    rw [if_neg hnb, if_neg hnp, if_neg hnu]

theorem exportCell_roundTrip (fmtDate : String → String) (projects : List Project)
    (users : List User) (f : FieldDef) (v : JsValue)
    (hnp : f.type ≠ .project) (hnu : f.type ≠ .user)
    (hgv : goodFieldValue fmtDate f.type v) :
    ∃ w : String,
      CellOk (exportCell fmtDate projects users f v).data w.data
      ∧ '\n' ∉ (exportCell fmtDate projects users f v).data
      ∧ NoEdgeWs (exportCell fmtDate projects users f v).data
      ∧ stripOuterQuotesChars (jsTrimChars w.data) = w.data
      ∧ coerceValue f projects users w = expectedImportValue fmtDate f v := by
  have hother : ∀ (s : String), f.type ≠ .boolean → f.type ≠ .date →
      v = .str s → '"' ∉ s.data → '\n' ∉ s.data → NoEdgeWs s.data →
      ∃ w : String,
        CellOk (exportCell fmtDate projects users f v).data w.data
        ∧ '\n' ∉ (exportCell fmtDate projects users f v).data
        ∧ NoEdgeWs (exportCell fmtDate projects users f v).data
        ∧ stripOuterQuotesChars (jsTrimChars w.data) = w.data
        ∧ coerceValue f projects users w = expectedImportValue fmtDate f v := by
    intro s hnb hnd hv hq hn hw
    subst hv
    have h2 := exportCell_other_type fmtDate projects users f s hnb hnd hnp hnu hq
    refine ⟨s, ?_, ?_, ?_, ?_, ?_⟩
    · rw [h2.1]
      exact Or.inr ⟨rfl, hq⟩
    · rw [h2.1]
      intro hm
      rcases List.mem_cons.1 hm with h | h
      · exact absurd h (by decide)
      · rcases List.mem_append.1 h with h3 | h3
        · exact hn h3
        · simp at h3
    · rw [h2.1]
      exact noEdgeWs_edge_chars '"' '"' s.data (by decide) (by decide)
    · have ht : jsTrimChars s.data = s.data := hw
      rw [ht, stripOuterQuotesChars_no_quote s.data hq]
    · rw [h2.2]
      unfold expectedImportValue
      rw [if_neg hnd]
  cases hft : f.type with
  | project => exact absurd hft hnp
  | user => exact absurd hft hnu
  | boolean =>
    rw [hft] at hgv
    simp only [goodFieldValue] at hgv
    rcases hgv with rfl | rfl
    · have hexp : exportCell fmtDate projects users f (JsValue.str "true") = "Có" := by
        unfold exportCell
        rw [hft]
        simp
      have hcoe : coerceValue f projects users "Có" = JsValue.str "true" := by
        unfold coerceValue
        rw [hft, if_pos rfl]
        decide
      refine ⟨"Có", ?_, ?_, ?_, ?_, ?_⟩
      · rw [hexp]
        exact Or.inl ⟨rfl, by decide, by decide⟩
      · rw [hexp]
        decide
      · rw [hexp]
        decide
      · decide
      · rw [hcoe]
        unfold expectedImportValue
        rw [hft]
        simp
    · have hexp : exportCell fmtDate projects users f (JsValue.str "false") = "Không" := by
        unfold exportCell
        rw [hft]
        simp
      have hcoe : coerceValue f projects users "Không" = JsValue.str "false" := by
        unfold coerceValue
        rw [hft, if_pos rfl]
        decide
      refine ⟨"Không", ?_, ?_, ?_, ?_, ?_⟩
      · rw [hexp]
        exact Or.inl ⟨rfl, by decide, by decide⟩
      · rw [hexp]
        decide
      · rw [hexp]
        decide
      · decide
      · rw [hcoe]
        unfold expectedImportValue
        rw [hft]
        simp
  | date =>
    rw [hft] at hgv
    simp only [goodFieldValue] at hgv
    cases v with
    | undefined => exact hgv.elim
    | null => exact hgv.elim
    | arr xs => exact hgv.elim
    | num n => exact hgv.elim
    | boolean b => exact hgv.elim
    | str s => ?_
    rcases hgv with rfl | ⟨hs, hclean⟩
    · have hexp : exportCell fmtDate projects users f (JsValue.str "") = "" := by
        unfold exportCell
        rw [hft]
        simp [jsTruthy]
      have hcoe : coerceValue f projects users "" = JsValue.str "" := by
        unfold coerceValue
        rw [hft]
        simp
      refine ⟨"", ?_, ?_, ?_, ?_, ?_⟩
      · rw [hexp]
        exact Or.inl ⟨rfl, by decide, by decide⟩
      · rw [hexp]
        decide
      · rw [hexp]
        exact noEdgeWs_nil
      · decide
      · rw [hcoe]
        unfold expectedImportValue
        rw [hft]
        simp [jsTruthy]
    · obtain ⟨hcm, hq, hn, hw⟩ := hclean
      have hexp : exportCell fmtDate projects users f (JsValue.str s) = fmtDate s := by
        unfold exportCell
        rw [hft]
        simp [jsTruthy, jsToString, hs]
      have hcoe : coerceValue f projects users (fmtDate s) = JsValue.str (fmtDate s) := by
        unfold coerceValue
        rw [hft]
        simp
      refine ⟨fmtDate s, ?_, ?_, ?_, ?_, ?_⟩
      · rw [hexp]
        exact Or.inl ⟨rfl, hq, hcm⟩
      · rw [hexp]
        exact hn
      · rw [hexp]
        exact hw
      · have ht : jsTrimChars (fmtDate s).data = (fmtDate s).data := hw
        rw [ht, stripOuterQuotesChars_no_quote (fmtDate s).data hq]
      · rw [hcoe]
        unfold expectedImportValue
        rw [hft]
        simp [jsTruthy, jsToString, hs]
  | text =>
    rw [hft] at hgv
    simp only [goodFieldValue] at hgv
    cases v with
    | undefined => exact hgv.elim
    | null => exact hgv.elim
    | arr xs => exact hgv.elim
    | num n => exact hgv.elim
    | boolean b => exact hgv.elim
    | str s => exact hother s (by simp [hft]) (by simp [hft]) rfl hgv.1 hgv.2.1 hgv.2.2
  | number =>
    rw [hft] at hgv
    simp only [goodFieldValue] at hgv
    cases v with
    | undefined => exact hgv.elim
    | null => exact hgv.elim
    | arr xs => exact hgv.elim
    | num n => exact hgv.elim
    | boolean b => exact hgv.elim
    | str s => exact hother s (by simp [hft]) (by simp [hft]) rfl hgv.1 hgv.2.1 hgv.2.2
  | textarea =>
    rw [hft] at hgv
    simp only [goodFieldValue] at hgv
    cases v with
    | undefined => exact hgv.elim
    | null => exact hgv.elim
    | arr xs => exact hgv.elim
    | num n => exact hgv.elim
    | boolean b => exact hgv.elim
    | str s => exact hother s (by simp [hft]) (by simp [hft]) rfl hgv.1 hgv.2.1 hgv.2.2
  | image =>
    rw [hft] at hgv
    simp only [goodFieldValue] at hgv
    cases v with
    | undefined => exact hgv.elim
    | null => exact hgv.elim
    | arr xs => exact hgv.elim
    | num n => exact hgv.elim
    | boolean b => exact hgv.elim
    | str s => exact hother s (by simp [hft]) (by simp [hft]) rfl hgv.1 hgv.2.1 hgv.2.2
  | file =>
    rw [hft] at hgv
    simp only [goodFieldValue] at hgv
    cases v with
    | undefined => exact hgv.elim
    | null => exact hgv.elim
    | arr xs => exact hgv.elim
    | num n => exact hgv.elim
    | boolean b => exact hgv.elim
    | str s => exact hother s (by simp [hft]) (by simp [hft]) rfl hgv.1 hgv.2.1 hgv.2.2

-- ---------------------------------------------------------------------------
-- Helper lemmas for the CSV round trip (C3): header mapping and row import
-- ---------------------------------------------------------------------------

theorem jsSet_fresh (m : List (String × JsValue)) (k : String) (v : JsValue)
    (h : ∀ p ∈ m, p.1 ≠ k) : jsSet m k v = m ++ [(k, v)] := by
  unfold jsSet
  rw [if_neg]
  intro hc
  rcases List.any_eq_true.1 hc with ⟨p, hp, hpk⟩
  exact h p hp (of_decide_eq_true hpk)

theorem find_name_self (fields : List FieldDef)
    (hpw : List.Pairwise (fun a b => jsToLower a.name ≠ jsToLower b.name) fields) :
    ∀ f ∈ fields, fields.find? (fun g => jsToLower g.name = jsToLower f.name) = some f := by
  induction fields with
  | nil =>
    intro f hf
    cases hf
  | cons g gs ih =>
    intro f hf
    rcases List.mem_cons.1 hf with rfl | hf2
    · rw [List.find?_cons_of_pos _ (by simp)]
    · rw [List.find?_cons_of_neg _ (by simp [(List.pairwise_cons.1 hpw).1 f hf2])]
      exact ih (List.pairwise_cons.1 hpw).2 f hf2

theorem find_key_self (fields : List FieldDef)
    (hkeys : (fields.map (fun f => f.key)).Nodup) :
    ∀ f ∈ fields, findField fields f.key = some f := by
  induction fields with
  | nil =>
    intro f hf
    cases hf
  | cons g gs ih =>
    intro f hf
    have hnd := List.nodup_cons.1 (show (g.key :: gs.map (fun f => f.key)).Nodup from hkeys)
    rcases List.mem_cons.1 hf with rfl | hf2
    · rw [findField, List.find?_cons_of_pos _ (by simp)]
    · rw [findField, List.find?_cons_of_neg _ ?hne]
      · exact ih hnd.2 f hf2
      case hne =>
        simp only [decide_eq_true_eq]
        intro hcon
        rw [hcon] at hnd
        exact hnd.1 (List.mem_map_of_mem (fun x => x.key) hf2)

theorem enumFrom_filterMap_names (fields : List FieldDef) :
    ∀ (sub : List FieldDef) (k : Nat),
      (∀ f ∈ sub, fields.find? (fun g => jsToLower g.name = jsToLower f.name) = some f) →
      (List.enumFrom k (sub.map (fun f => f.name))).filterMap
          (fun ih2 => (fields.find? (fun g => jsToLower g.name = jsToLower ih2.2)).map
            (fun g => (ih2.1, g.key)))
        = List.enumFrom k (sub.map (fun f => f.key)) := by
  intro sub
  induction sub with
  | nil =>
    intro k _
    rfl
  | cons f fs ih =>
    intro k h
    simp only [List.map_cons, List.enumFrom, List.filterMap_cons]
    rw [h f (List.mem_cons_self _ _)]
    simp only [Option.map_some']
    rw [ih (k + 1) (fun g hg => h g (List.mem_cons_of_mem _ hg))]

theorem enumFrom_filterMap_none (fields : List FieldDef) :
    ∀ (hs : List String) (k : Nat),
      (∀ h ∈ hs, fields.find? (fun g => jsToLower g.name = jsToLower h) = none) →
      (List.enumFrom k hs).filterMap
          (fun ih2 => (fields.find? (fun g => jsToLower g.name = jsToLower ih2.2)).map
            (fun g => (ih2.1, g.key)))
        = [] := by
  intro hs
  induction hs with
  | nil =>
    intro k _
    rfl
  | cons h0 hs2 ih =>
    intro k h
    simp only [List.enumFrom, List.filterMap_cons]
    rw [h h0 (List.mem_cons_self _ _)]
    simp only [Option.map_none']
    exact ih (k + 1) (fun g hg => h g (List.mem_cons_of_mem _ hg))

theorem importRow_go (allFields : List FieldDef) (projects : List Project) (users : List User)
    (fmtDate : String → String) (r : ResourceItem) :
    ∀ (sub : List FieldDef) (ws : List String) (k : Nat) (values : List String)
      (acc : List (String × JsValue)),
      List.Forall₂ (fun f w =>
          stripOuterQuotesChars (jsTrimChars w.data) = w.data
          ∧ coerceValue f projects users w = expectedImportValue fmtDate f (jsGet r.data f.key)) sub ws →
      (∀ f ∈ sub, findField allFields f.key = some f) →
      (sub.map (fun f => f.key)).Nodup →
      (∀ f ∈ sub, ∀ p ∈ acc, p.1 ≠ f.key) →
      (∀ i, i < ws.length → values.getD (k + i) "" = ws.getD i "") →
      List.foldl (fun acc2 ik =>
          match findField allFields ik.2 with
          | none => acc2
          | some fd =>
            jsSet acc2 ik.2 (coerceValue fd projects users
              (String.mk (stripOuterQuotesChars (jsTrimChars ((values.getD ik.1 "").data))))))
        acc (List.enumFrom k (sub.map (fun f => f.key)))
      = acc ++ sub.map (fun f => (f.key, expectedImportValue fmtDate f (jsGet r.data f.key))) := by
  intro sub
  induction sub with
  | nil =>
    intro ws k values acc _ _ _ _ _
    simp
  | cons f fs ih =>
    intro ws k values acc hfa hfind hnd hacc hval
    cases hfa with
    | cons hfw hfa2 =>
      rename_i w ws'
      have hnd2 := List.nodup_cons.1 (show (f.key :: fs.map (fun g => g.key)).Nodup from hnd)
      have hv0 : values.getD k "" = w := by
        have h0 := hval 0 (by simp)
        simpa using h0
      simp only [List.map_cons, List.enumFrom, List.foldl_cons]
      rw [hfind f (List.mem_cons_self _ _), hv0, hfw.1,
        show String.mk w.data = w from rfl]
      show List.foldl _ (jsSet acc f.key (coerceValue f projects users w)) _ = _
      rw [hfw.2, jsSet_fresh acc f.key _ (fun p hp => hacc f (List.mem_cons_self _ _) p hp)]
      rw [ih ws' (k + 1) values (acc ++ [(f.key, expectedImportValue fmtDate f (jsGet r.data f.key))])
        hfa2 (fun g hg => hfind g (List.mem_cons_of_mem _ hg)) hnd2.2 ?fresh ?hval2]
      · simp
      case fresh =>
        intro g hg p hp
        rcases List.mem_append.1 hp with hin | hin
        · exact hacc g (List.mem_cons_of_mem _ hg) p hin
        · have hpeq : p = (f.key, expectedImportValue fmtDate f (jsGet r.data f.key)) :=
            List.mem_singleton.1 hin
          rw [hpeq]
          intro hcon
          have hcon2 : f.key = g.key := hcon
          exact hnd2.1 (by rw [hcon2]; exact List.mem_map_of_mem _ hg)
      case hval2 =>
        intro i hi
        have h2 := hval (i + 1) (by simpa using Nat.succ_lt_succ hi)
        rw [show k + 1 + i = k + (i + 1) from by omega]
        simpa using h2

theorem zipWith_pair_fst {α β : Type} (g : α → List Char) (h : β → List Char) :
    ∀ (xs : List α) (ys : List β), xs.length = ys.length →
      (List.zipWith (fun x y => (g x, h y)) xs ys).map Prod.fst = xs.map g := by
  intro xs
  induction xs with
  | nil =>
    intro ys _
    simp
  | cons x xs2 ih =>
    intro ys hlen
    cases ys with
    | nil => simp at hlen
    | cons y ys2 =>
      simp only [List.zipWith_cons_cons, List.map_cons]
      rw [ih ys2 (by simpa using hlen)]

theorem zipWith_pair_snd {α β : Type} (g : α → List Char) (h : β → List Char) :
    ∀ (xs : List α) (ys : List β), xs.length = ys.length →
      (List.zipWith (fun x y => (g x, h y)) xs ys).map Prod.snd = ys.map h := by
  intro xs
  induction xs with
  | nil =>
    intro ys hlen
    cases ys with
    | nil => simp
    | cons y ys2 => simp at hlen
  | cons x xs2 ih =>
    intro ys hlen
    cases ys with
    | nil => simp at hlen
    | cons y ys2 =>
      simp only [List.zipWith_cons_cons, List.map_cons]
      rw [ih ys2 (by simpa using hlen)]

theorem forall_mem_zipWith_pair {α β : Type} {R : α → β → Prop} {P : List Char × List Char → Prop}
    (g : α → List Char) (h : β → List Char)
    (himp : ∀ x y, R x y → P (g x, h y)) :
    ∀ {xs : List α} {ys : List β}, List.Forall₂ R xs ys →
      ∀ p ∈ List.zipWith (fun x y => (g x, h y)) xs ys, P p := by
  intro xs ys hfa
  induction hfa with
  | nil =>
    intro p hp
    simp at hp
  | cons hxy hfa2 ih =>
    intro p hp
    rcases List.mem_cons.1 hp with rfl | hp2
    · exact himp _ _ hxy
    · exact ih p hp2

theorem strip_trim_id (s : String) (hq : '"' ∉ s.data) (hw : NoEdgeWs s.data) :
    stripOuterQuotes (jsTrim s) = s := by
  unfold stripOuterQuotes jsTrim
  have ht : jsTrimChars s.data = s.data := hw
  rw [show (String.mk (jsTrimChars s.data)).data = jsTrimChars s.data from rfl, ht,
    stripOuterQuotesChars_no_quote s.data hq]

theorem joinComma_ne_nil_len2 (parts : List (List Char)) (h : 2 ≤ parts.length) :
    joinComma parts ≠ [] := by
  match parts, h with
  | a :: b :: rest, _ => exact joinComma_two_ne_nil a b rest

theorem fields_cells_exist (fmtDate : String → String) (projects : List Project)
    (users : List User) (r : ResourceItem) :
    ∀ (fields : List FieldDef),
      (∀ f ∈ fields, f.type ≠ .project ∧ f.type ≠ .user
          ∧ goodFieldValue fmtDate f.type (jsGet r.data f.key)) →
      ∃ ws : List String,
        List.Forall₂ (fun f w =>
          CellOk (exportCell fmtDate projects users f (jsGet r.data f.key)).data w.data
          ∧ '\n' ∉ (exportCell fmtDate projects users f (jsGet r.data f.key)).data
          ∧ NoEdgeWs (exportCell fmtDate projects users f (jsGet r.data f.key)).data
          ∧ stripOuterQuotesChars (jsTrimChars w.data) = w.data
          ∧ coerceValue f projects users w = expectedImportValue fmtDate f (jsGet r.data f.key))
          fields ws := by
  intro fields
  induction fields with
  | nil =>
    intro _
    exact ⟨[], List.Forall₂.nil⟩
  | cons f fs ih =>
    intro h
    obtain ⟨w, hw⟩ := exportCell_roundTrip fmtDate projects users f (jsGet r.data f.key)
      (h f (List.mem_cons_self _ _)).1 (h f (List.mem_cons_self _ _)).2.1
      (h f (List.mem_cons_self _ _)).2.2
    obtain ⟨ws, hws⟩ := ih (fun g hg => h g (List.mem_cons_of_mem _ hg))
    exact ⟨w :: ws, List.Forall₂.cons hw hws⟩

theorem forall₂_left_prop {α β : Type} {R : α → β → Prop} {Q : α → Prop}
    (himp : ∀ x y, R x y → Q x) :
    ∀ {xs : List α} {ys : List β}, List.Forall₂ R xs ys → ∀ x ∈ xs, Q x := by
  intro xs ys h
  induction h with
  | nil =>
    intro x hx
    cases hx
  | cons hxy h2 ih =>
    intro x hx
    rcases List.mem_cons.1 hx with rfl | hx2
    · exact himp _ _ hxy
    · exact ih x hx2

theorem zipWith_pair_snd_mk {α : Type} (g : α → List Char) :
    ∀ (xs : List α) (ys : List String), xs.length = ys.length →
      (List.zipWith (fun x y => (g x, y.data)) xs ys).map (fun p => String.mk p.2) = ys := by
  intro xs
  induction xs with
  | nil =>
    intro ys hlen
    cases ys with
    | nil => simp
    | cons y ys2 => simp at hlen
  | cons x xs2 ih =>
    intro ys hlen
    cases ys with
    | nil => simp at hlen
    | cons y ys2 =>
      simp only [List.zipWith_cons_cons, List.map_cons]
      rw [ih ys2 (by simpa using hlen)]

theorem exportRow_roundTrip (fmtDate : String → String) (fmtDateTime : Nat → String)
    (projects : List Project) (users : List User) (fields : List FieldDef) (r : ResourceItem)
    (hkeys : (fields.map (fun f => f.key)).Nodup)
    (hid : cleanCsvText r.id.data) (hcb : cleanCsvText r.createdBy.data)
    (hdt : cleanCsvText (fmtDateTime r.createdAt).data)
    (hvals : ∀ f ∈ fields, f.type ≠ .project ∧ f.type ≠ .user
        ∧ goodFieldValue fmtDate f.type (jsGet r.data f.key)) :
    '\n' ∉ exportRow fmtDate fmtDateTime projects users fields r
    ∧ NoEdgeWs (exportRow fmtDate fmtDateTime projects users fields r)
    ∧ exportRow fmtDate fmtDateTime projects users fields r ≠ []
    ∧ importRow fields projects users (List.enumFrom 1 (fields.map (fun f => f.key)))
        (parseCSVLine (String.mk (exportRow fmtDate fmtDateTime projects users fields r)))
      = fields.map (fun f => (f.key, expectedImportValue fmtDate f (jsGet r.data f.key))) := by
  obtain ⟨ws, hws⟩ := fields_cells_exist fmtDate projects users r fields hvals
  have hlen := hws.length_eq
  have hcellprops := forall₂_left_prop (R := fun f w =>
      CellOk (exportCell fmtDate projects users f (jsGet r.data f.key)).data w.data
      ∧ '\n' ∉ (exportCell fmtDate projects users f (jsGet r.data f.key)).data
      ∧ NoEdgeWs (exportCell fmtDate projects users f (jsGet r.data f.key)).data
      ∧ stripOuterQuotesChars (jsTrimChars w.data) = w.data
      ∧ coerceValue f projects users w = expectedImportValue fmtDate f (jsGet r.data f.key))
    (Q := fun f => '\n' ∉ (exportCell fmtDate projects users f (jsGet r.data f.key)).data
      ∧ NoEdgeWs (exportCell fmtDate projects users f (jsGet r.data f.key)).data)
    (fun x y hr => ⟨hr.2.1, hr.2.2.1⟩) hws
  have hpartsmem : ∀ p ∈ (r.id.data ::
      (fields.map (fun f => (exportCell fmtDate projects users f (jsGet r.data f.key)).data)
        ++ [r.createdBy.data, (fmtDateTime r.createdAt).data])),
      '\n' ∉ p ∧ NoEdgeWs p := by
    intro p hp
    rcases List.mem_cons.1 hp with rfl | hp2
    · exact ⟨hid.2.2.1, hid.2.2.2⟩
    · rcases List.mem_append.1 hp2 with hp3 | hp3
      · obtain ⟨f, hf, rfl⟩ := List.mem_map.1 hp3
        exact hcellprops f hf
      · rcases List.mem_cons.1 hp3 with rfl | hp4
        · exact ⟨hcb.2.2.1, hcb.2.2.2⟩
        · rw [List.mem_singleton.1 hp4]
          exact ⟨hdt.2.2.1, hdt.2.2.2⟩
  have hrow : exportRow fmtDate fmtDateTime projects users fields r
      = joinComma (r.id.data ::
        (fields.map (fun f => (exportCell fmtDate projects users f (jsGet r.data f.key)).data)
          ++ [r.createdBy.data, (fmtDateTime r.createdAt).data])) := rfl
  refine ⟨?_, ?_, ?_, ?_⟩
  · rw [hrow]
    exact joinComma_not_mem '\n' (by decide) _ (fun p hp => (hpartsmem p hp).1)
  · rw [hrow]
    exact joinComma_noEdgeWs _ (fun p hp => (hpartsmem p hp).2)
  · rw [hrow]
    apply joinComma_ne_nil_len2
    simp only [List.length_cons, List.length_append]
    omega
  · have hfst : ((r.id.data, r.id.data) ::
        (List.zipWith (fun f (w : String) =>
            ((exportCell fmtDate projects users f (jsGet r.data f.key)).data, w.data)) fields ws
          ++ [(r.createdBy.data, r.createdBy.data),
              ((fmtDateTime r.createdAt).data, (fmtDateTime r.createdAt).data)])).map Prod.fst
        = (r.id.data ::
          (fields.map (fun f => (exportCell fmtDate projects users f (jsGet r.data f.key)).data)
            ++ [r.createdBy.data, (fmtDateTime r.createdAt).data])) := by
      simp only [List.map_cons, List.map_append]
      rw [zipWith_pair_fst _ _ fields ws hlen]
      rfl
    have hparse : parseCSVLine (String.mk (exportRow fmtDate fmtDateTime projects users fields r))
        = r.id :: (ws ++ [r.createdBy, fmtDateTime r.createdAt]) := by
      rw [hrow, ← hfst]
      rw [parseCSVLine_cellOks _ _ (Or.inl ⟨rfl, hid.2.1, hid.1⟩) ?hall]
      · simp only [List.map_cons, List.map_append]
        rw [zipWith_pair_snd_mk _ fields ws hlen]
        rfl
      case hall =>
        intro x hx
        rcases List.mem_append.1 hx with hx2 | hx2
        · exact forall_mem_zipWith_pair (P := fun p => CellOk p.1 p.2) _ _
            (fun f w hr => hr.1) hws x hx2
        · rcases List.mem_cons.1 hx2 with rfl | hx3
          · exact Or.inl ⟨rfl, hcb.2.1, hcb.1⟩
          · rw [List.mem_singleton.1 hx3]
            exact Or.inl ⟨rfl, hdt.2.1, hdt.1⟩
    rw [hparse]
    have hgo := importRow_go fields projects users fmtDate r fields ws 1
      (r.id :: (ws ++ [r.createdBy, fmtDateTime r.createdAt])) []
      (hws.imp (fun f w hr => ⟨hr.2.2.2.1, hr.2.2.2.2⟩))
      (find_key_self fields hkeys) hkeys
      (fun f _ p hp => absurd hp (List.not_mem_nil p))
      ?hval
    · simpa [importRow] using hgo
    case hval =>
      intro i hi
      rw [show 1 + i = i + 1 from by omega, List.getD_cons_succ,
        List.getD_append ws [r.createdBy, fmtDateTime r.createdAt] "" i (by omega)]

theorem splitLines_cons_ne (c : Char) (rest : List Char) (hc : ¬ c = '\n')
    (l : List Char) (ls : List (List Char)) (h : splitLines rest = l :: ls) :
    splitLines (c :: rest) = (c :: l) :: ls := by
  simp only [splitLines]
  rw [if_neg hc, h]

theorem exportHeader_parse (fields : List FieldDef)
    (hnames : ∀ f ∈ fields, cleanCsvText f.name.data) :
    '\n' ∉ exportHeaderLine fields
    ∧ NoEdgeWs (exportHeaderLine fields)
    ∧ exportHeaderLine fields ≠ []
    ∧ (parseCSVLine (String.mk (exportHeaderLine fields))).map (fun h => stripOuterQuotes (jsTrim h))
      = "ID" :: (fields.map (fun f => f.name) ++ ["Người tạo", "Ngày tạo"]) := by
  have hpartsmem : ∀ p ∈ ("ID".data ::
      (fields.map (fun f => f.name.data) ++ ["Người tạo".data, "Ngày tạo".data])),
      '\n' ∉ p ∧ NoEdgeWs p ∧ '"' ∉ p ∧ ',' ∉ p := by
    intro p hp
    rcases List.mem_cons.1 hp with rfl | hp2
    · exact ⟨by decide, by decide, by decide, by decide⟩
    · rcases List.mem_append.1 hp2 with hp3 | hp3
      · obtain ⟨f, hf, rfl⟩ := List.mem_map.1 hp3
        obtain ⟨hc, hq, hn, hw⟩ := hnames f hf
        exact ⟨hn, hw, hq, hc⟩
      · rcases List.mem_cons.1 hp3 with rfl | hp4
        · exact ⟨by decide, by decide, by decide, by decide⟩
        · rw [List.mem_singleton.1 hp4]
          exact ⟨by decide, by decide, by decide, by decide⟩
  have hhl : exportHeaderLine fields
      = joinComma ("ID".data ::
        (fields.map (fun f => f.name.data) ++ ["Người tạo".data, "Ngày tạo".data])) := rfl
  refine ⟨?_, ?_, ?_, ?_⟩
  · rw [hhl]
    exact joinComma_not_mem '\n' (by decide) _ (fun p hp => (hpartsmem p hp).1)
  · rw [hhl]
    exact joinComma_noEdgeWs _ (fun p hp => (hpartsmem p hp).2.1)
  · rw [hhl]
    apply joinComma_ne_nil_len2
    simp only [List.length_cons, List.length_append]
    omega
  · have hfst : (("ID".data, "ID".data) ::
        (fields.map (fun f => (f.name.data, f.name.data))
          ++ [("Người tạo".data, "Người tạo".data), ("Ngày tạo".data, "Ngày tạo".data)])).map Prod.fst
        = ("ID".data ::
          (fields.map (fun f => f.name.data) ++ ["Người tạo".data, "Ngày tạo".data])) := by
      simp [List.map_map]
    have hparse : parseCSVLine (String.mk (exportHeaderLine fields))
        = "ID" :: (fields.map (fun f => f.name) ++ ["Người tạo", "Ngày tạo"]) := by
      rw [hhl, ← hfst]
      rw [parseCSVLine_cellOks _ _ (Or.inl ⟨rfl, by decide, by decide⟩) ?hall]
      · simp only [List.map_cons, List.map_append, List.map_map]
        rfl
      case hall =>
        intro x hx
        rcases List.mem_append.1 hx with hx2 | hx2
        · obtain ⟨f, hf, rfl⟩ := List.mem_map.1 hx2
          obtain ⟨hc, hq, _, _⟩ := hnames f hf
          exact Or.inl ⟨rfl, hq, hc⟩
        · rcases List.mem_cons.1 hx2 with rfl | hx3
          · exact Or.inl ⟨rfl, by decide, by decide⟩
          · rw [List.mem_singleton.1 hx3]
            exact Or.inl ⟨rfl, by decide, by decide⟩
    rw [hparse]
    simp only [List.map_cons, List.map_append, List.map_map, List.map_nil, Function.comp_def]
    rw [show stripOuterQuotes (jsTrim "ID") = "ID" from by decide]
    rw [show stripOuterQuotes (jsTrim "Người tạo") = "Người tạo" from by decide]
    rw [show stripOuterQuotes (jsTrim "Ngày tạo") = "Ngày tạo" from by decide]
    rw [List.map_congr_left (fun f hf =>
      strip_trim_id f.name (hnames f hf).2.1 (hnames f hf).2.2.2)]

/-- C3 (amended): exporting a non-empty list of resources of a category
whose fields are all non-relation typed, then importing the produced CSV
back into the same category, reconstructs every stored field value
exactly for boolean, number, text-like and attachment fields, and
reconstructs date fields as their locale-formatted string (the claim's
"modulo locale-specific date string formatting") — provided field names
are distinct case-insensitively, are clean CSV text and avoid the
reserved headers, keys are distinct, the id/creator/timestamp cells are
clean CSV text, boolean fields store "true"/"false", date fields store
clean-formatting values, and every other value is a string free of
double quotes and newlines with no edge whitespace; embedded commas do
round-trip. Text values with embedded double quotes or newlines are
excluded: they do not round-trip (see the counterexample). -/
theorem c3_csv_round_trip_amended
    (fmtDate : String → String) (fmtDateTime : Nat → String)
    (projects : List Project) (users : List User)
    (fields : List FieldDef) (resources : List ResourceItem)
    (hfne : fields ≠ []) (hrne : resources ≠ [])
    (hnames : List.Pairwise (fun a b => jsToLower a.name ≠ jsToLower b.name) fields)
    (hkeys : (fields.map (fun f => f.key)).Nodup)
    (hnameclean : ∀ f ∈ fields, cleanCsvText f.name.data
        ∧ jsToLower f.name ≠ "id" ∧ jsToLower f.name ≠ "người tạo" ∧ jsToLower f.name ≠ "ngày tạo")
    (hres : ∀ r ∈ resources, cleanCsvText r.id.data ∧ cleanCsvText r.createdBy.data
        ∧ cleanCsvText (fmtDateTime r.createdAt).data
        ∧ ∀ f ∈ fields, f.type ≠ .project ∧ f.type ≠ .user
            ∧ goodFieldValue fmtDate f.type (jsGet r.data f.key)) :
    importCSV fields projects users
        (exportCSV fmtDate fmtDateTime projects users fields resources)
      = .ok (resources.map (fun r =>
          fields.map (fun f => (f.key, expectedImportValue fmtDate f (jsGet r.data f.key))))) := by
  have hhp := exportHeader_parse fields (fun f hf => (hnameclean f hf).1)
  have rowprops : ∀ r ∈ resources,
      '\n' ∉ exportRow fmtDate fmtDateTime projects users fields r
      ∧ NoEdgeWs (exportRow fmtDate fmtDateTime projects users fields r)
      ∧ exportRow fmtDate fmtDateTime projects users fields r ≠ []
      ∧ importRow fields projects users (List.enumFrom 1 (fields.map (fun f => f.key)))
          (parseCSVLine (String.mk (exportRow fmtDate fmtDateTime projects users fields r)))
        = fields.map (fun f => (f.key, expectedImportValue fmtDate f (jsGet r.data f.key))) :=
    fun r hr => exportRow_roundTrip fmtDate fmtDateTime projects users fields r hkeys
      (hres r hr).1 (hres r hr).2.1 (hres r hr).2.2.1 (hres r hr).2.2.2
  have htext : (exportCSV fmtDate fmtDateTime projects users fields resources).data
      = '\uFEFF' :: joinLines (exportHeaderLine fields ::
          resources.map (exportRow fmtDate fmtDateTime projects users fields)) := rfl
  have hnl : ∀ l ∈ (exportHeaderLine fields ::
      resources.map (exportRow fmtDate fmtDateTime projects users fields)), '\n' ∉ l := by
    intro l hlmem
    rcases List.mem_cons.1 hlmem with rfl | hm
    · exact hhp.1
    · obtain ⟨r, hr, rfl⟩ := List.mem_map.1 hm
      exact (rowprops r hr).1
  have hsplit : splitLines (exportCSV fmtDate fmtDateTime projects users fields resources).data
      = ('\uFEFF' :: exportHeaderLine fields) ::
          resources.map (exportRow fmtDate fmtDateTime projects users fields) := by
    rw [htext]
    exact splitLines_cons_ne _ _ (by decide) _ _ (splitLines_joinLines _ hnl (by simp))
  have hmap : ((splitLines (exportCSV fmtDate fmtDateTime projects users fields resources).data).map
        (fun l => String.mk (jsTrimChars l)))
      = String.mk (exportHeaderLine fields) ::
          (resources.map (exportRow fmtDate fmtDateTime projects users fields)).map String.mk := by
    rw [hsplit]
    simp only [List.map_cons]
    congr 1
    · rw [jsTrimChars_bom]
      have h2 : jsTrimChars (exportHeaderLine fields) = exportHeaderLine fields := hhp.2.1
      rw [h2]
    · apply List.map_congr_left
      intro l hm
      obtain ⟨r, hr, rfl⟩ := List.mem_map.1 hm
      have h2 : jsTrimChars (exportRow fmtDate fmtDateTime projects users fields r)
          = exportRow fmtDate fmtDateTime projects users fields r := (rowprops r hr).2.1
      rw [h2]
  have hfilter : (String.mk (exportHeaderLine fields) ::
        (resources.map (exportRow fmtDate fmtDateTime projects users fields)).map String.mk).filter
          (fun s => s ≠ "")
      = String.mk (exportHeaderLine fields) ::
          (resources.map (exportRow fmtDate fmtDateTime projects users fields)).map String.mk := by
    rw [List.filter_eq_self]
    intro a ha
    rcases List.mem_cons.1 ha with rfl | ha2
    · simp only [decide_eq_true_eq]
      intro hcon
      exact hhp.2.2.1 (congrArg String.data hcon)
    · obtain ⟨l, hl2, rfl⟩ := List.mem_map.1 ha2
      obtain ⟨r, hr, rfl⟩ := List.mem_map.1 hl2
      simp only [decide_eq_true_eq]
      intro hcon
      exact (rowprops r hr).2.2.1 (congrArg String.data hcon)
  have hfm : (("ID" :: (fields.map (fun f => f.name) ++ ["Người tạo", "Ngày tạo"])).enum).filterMap
        (fun ih2 => (fields.find? (fun f => jsToLower f.name = jsToLower ih2.2)).map
          (fun f => (ih2.1, f.key)))
      = List.enumFrom 1 (fields.map (fun f => f.key)) := by
    show (((0 : Nat), ("ID" : String)) ::
        List.enumFrom 1 (fields.map (fun f => f.name) ++ ["Người tạo", "Ngày tạo"])).filterMap _
      = _
    rw [List.filterMap_cons]
    rw [List.find?_eq_none.2 (fun g hg => by
      simp only [decide_eq_true_eq]
      rw [show jsToLower "ID" = "id" from by decide]
      exact (hnameclean g hg).2.1)]
    simp only [Option.map_none']
    rw [List.enumFrom_append, List.filterMap_append]
    rw [enumFrom_filterMap_names fields fields 1 (find_name_self fields hnames)]
    rw [enumFrom_filterMap_none fields ["Người tạo", "Ngày tạo"] _ (fun h hmem => by
      rcases List.mem_cons.1 hmem with rfl | hmem2
      · exact List.find?_eq_none.2 (fun g hg => by
          simp only [decide_eq_true_eq]
          rw [show jsToLower "Người tạo" = "người tạo" from by decide]
          exact (hnameclean g hg).2.2.1)
      · rw [List.mem_singleton.1 hmem2]
        exact List.find?_eq_none.2 (fun g hg => by
          simp only [decide_eq_true_eq]
          rw [show jsToLower "Ngày tạo" = "ngày tạo" from by decide]
          exact (hnameclean g hg).2.2.2))]
    rw [List.append_nil]
  obtain ⟨r0, rs, rfl⟩ : ∃ r0 rs, resources = r0 :: rs := by
    cases resources with
    | nil => exact absurd rfl hrne
    | cons a b => exact ⟨a, b, rfl⟩
  obtain ⟨f0, fs, rfl⟩ : ∃ f0 fs, fields = f0 :: fs := by
    cases fields with
    | nil => exact absurd rfl hfne
    | cons a b => exact ⟨a, b, rfl⟩
  simp only [importCSV]
  rw [hmap, hfilter]
  simp only [List.map_cons, List.isEmpty_cons, Bool.false_eq_true, if_false]
  rw [hhp.2.2.2, hfm]
  simp only [List.enumFrom, List.isEmpty_cons, Bool.false_eq_true, if_false]
  simp only [Except.ok.injEq]
  congr 1
  · exact (rowprops r0 (List.mem_cons_self _ _)).2.2.2
  · rw [List.map_map, List.map_map]
    apply List.map_congr_left
    intro r hr
    simp only [Function.comp_apply]
    exact (rowprops r (List.mem_cons_of_mem _ hr)).2.2.2

/-- C3 counterexample: a text value with an embedded double quote does
not round-trip. The export writes `a"b` RFC4180-style as `"a""b"`, but
the import's parser consumes every double quote as a toggle (C6), so the
value comes back as `ab`. -/
theorem c3_counterexample :
    importCSV [⟨"f1", "Name", "k1", .text, false⟩] [] []
        (exportCSV (fun s => s) (fun _ => "d") [] [] [⟨"f1", "Name", "k1", .text, false⟩]
          [⟨"r1", "c1", [("k1", .str "a\"b")], "u", 0⟩])
      = .ok [[("k1", JsValue.str "ab")]]
    ∧ JsValue.str "ab" ≠ JsValue.str "a\"b" := by
  constructor
  · rfl
  · decide

/-- Witness for the amended C3: a category with a text field (value
containing an embedded comma), a boolean field and a date field
round-trips through export and import. -/
theorem c3_witness :
    importCSV
        [⟨"f1", "Name", "k1", .text, false⟩, ⟨"f2", "Active", "k2", .boolean, true⟩,
         ⟨"f3", "Day", "k3", .date, false⟩] [] []
        (exportCSV (fun s => s) (fun _ => "15/3/2024 07:00:00") [] []
          [⟨"f1", "Name", "k1", .text, false⟩, ⟨"f2", "Active", "k2", .boolean, true⟩,
           ⟨"f3", "Day", "k3", .date, false⟩]
          [⟨"r1", "c1", [("k1", .str "Laptop, Pro"), ("k2", .str "true"), ("k3", .str "2024-03-15")],
            "alice", 0⟩])
      = .ok (([⟨"r1", "c1", [("k1", .str "Laptop, Pro"), ("k2", .str "true"), ("k3", .str "2024-03-15")],
            "alice", 0⟩] : List ResourceItem).map (fun r =>
          ([⟨"f1", "Name", "k1", FieldType.text, false⟩, ⟨"f2", "Active", "k2", FieldType.boolean, true⟩,
           ⟨"f3", "Day", "k3", FieldType.date, false⟩] : List FieldDef).map (fun f =>
            (f.key, expectedImportValue (fun s => s) f (jsGet r.data f.key))))) :=
  c3_csv_round_trip_amended (fun s => s) (fun _ => "15/3/2024 07:00:00") [] []
    [⟨"f1", "Name", "k1", .text, false⟩, ⟨"f2", "Active", "k2", .boolean, true⟩,
     ⟨"f3", "Day", "k3", .date, false⟩]
    [⟨"r1", "c1", [("k1", .str "Laptop, Pro"), ("k2", .str "true"), ("k3", .str "2024-03-15")],
      "alice", 0⟩]
    (by decide) (by decide) (by decide) (by decide) (by decide) (by decide)

end QlAccount
